import Mathlib

/-!
# Control-flow graph builder: a shallow embedding

This file embeds the control-flow-graph subsystem of `diagnostic/controlflow.py`:
the node registry (`ControlFlowRegistry`), the node model (`ControlFlowNode`),
the AST walker (`ControlFlow.on_*` handlers for the statement and expression
kinds the verified claims exercise: modules, single assignments, `pass`,
expression statements, function definitions, and call expressions with
name / attribute / nested-call / boolean-operator callees), the post-walk
passes (`update_children`, `link_functions`), the two `generate_control_flow`
entry points, and the dominator fixpoint `compute_dominator`.

Conventions of the embedding:
* Node ids (`rid`) are natural numbers; in the source, `ControlFlowRegistry.registry`
  always equals the number of registered nodes and `cache` maps the dense keys
  `0, 1, ..., registry - 1` to the nodes, so the registry is represented by the
  list of nodes in registration order (`rid` = position, counter = length).
* Python object references in `parents` and `children` are represented by rids
  (the source compares nodes by `rid` in `__eq__`, so `p not in self.parents`
  is exactly rid-membership).
* `calls` entries are either discovered name strings or, for a boolean-operator
  callee, the operator object itself (`Callee.opObj`), mirroring
  `mid = node.func.op` in `get_func`.
* Fallible code (uncaught `raise`, `assert`, unhandled attribute or index
  access) is modelled with `Except String`.
* `astor.to_source(...).strip()` is modelled by `renderStmt`/`renderExpr` on
  the embedded AST fragment; line numbers and the `functions_node` memo table
  (written by `update_functions`, read by nothing modelled here) are projected
  away.
-/

/-- A callee discovered by `get_func`: either a name string, or (for a
`BoolOp` callee) the operator object itself. -/
inductive Callee where
  | name (s : String)
  | opObj (op : String)
deriving DecidableEq, Repr

/-- The expression subset of the Python AST that the verified claims exercise.
`other` stands for any expression kind that has no `on_...` handler and is not
one of the callee kinds `get_func` recognises (e.g. a lambda); such nodes carry
no children that the walker would visit. -/
inductive PyExpr where
  | name (id : String)
  | attributeRef (value : PyExpr) (attr : String)
  | call (func : PyExpr) (args : List PyExpr)
  | boolop (op : String)
  | other (kind : String)

/-- The statement subset of the Python AST that the verified claims exercise. -/
inductive PyStmt where
  | assign (targets : List String) (value : PyExpr)
  | pass
  | exprStmt (value : PyExpr)
  | functiondef (name : String) (args : List String) (body : List PyStmt)

mutual
/-- `astor.to_source(e).strip()` on the embedded expression subset. -/
def renderExpr : PyExpr → String
  | .name s => s
  | .attributeRef v a => renderExpr v ++ "." ++ a
  | .call f args => renderExpr f ++ "(" ++ renderExprs args ++ ")"
  | .boolop op => op
  | .other k => k

def renderExprs : List PyExpr → String
  | [] => ""
  | [e] => renderExpr e
  | e :: rest => renderExpr e ++ ", " ++ renderExprs rest
end

/-- `astor.to_source(s).strip()` on the embedded statement subset.  (The walker
never wraps a `FunctionDef` in a node, so that case is only for totality.) -/
def renderStmt : PyStmt → String
  | .assign ts v => String.intercalate (" = ") ts ++ " = " ++ renderExpr v
  | .pass => "pass"
  | .exprStmt v => renderExpr v
  | .functiondef n args _ =>
      "def " ++ n ++ "(" ++ String.intercalate (", ") args ++ "):"

/-- The rendered source of the synthetic `enter: f(a, b)` sentinel. -/
def renderEnter (fname : String) (args : List String) : String :=
  "enter: " ++ fname ++ "(" ++ String.intercalate (", ") args ++ ")"

/-- The rendered source of the synthetic `exit: f(a, b)` sentinel. -/
def renderExit (fname : String) (args : List String) : String :=
  "exit: " ++ fname ++ "(" ++ String.intercalate (", ") args ++ ")"

/-- One `ControlFlowNode`.  `src` is the rendered source text of its AST
fragment (`source()` in the source).  `calllink`/`return_nodes` model the
dynamically injected attributes of the same names (`none` = attribute absent);
`calleelink` and `fn_exit_node` model the boolean tags set on the function
sentinels. -/
structure CFNode where
  rid : Nat
  parents : List Nat
  children : List Nat
  calls : List Callee
  src : String
  calllink : Option Int
  return_nodes : Option (List Nat)
  calleelink : Bool
  fn_exit_node : Bool
deriving DecidableEq, Repr, Inhabited

/-- `ControlFlowNode.add_parent`: append `p` unless already present. -/
def CFNode.addParent (n : CFNode) (p : Nat) : CFNode :=
  if p ∈ n.parents then n else { n with parents := n.parents ++ [p] }

/-- `ControlFlowNode.add_child`: append `c` unless already present. -/
def CFNode.addChild (n : CFNode) (c : Nat) : CFNode :=
  if c ∈ n.children then n else { n with children := n.children ++ [c] }

/-- `ControlFlowNode.add_calls`: unconditional append. -/
def CFNode.addCalls (n : CFNode) (c : Callee) : CFNode :=
  { n with calls := n.calls ++ [c] }

/-- The mutable state threaded through one build: the registry cache (`cache`,
with `rid` = list position and the id counter = `cache.length`) and the
`ControlFlow` instance's `functions` table (name ↦ `[enter, exit]` rids;
entries are prepended so that the head is the most recent binding, matching
dict overwrite-then-lookup). -/
structure CFState where
  cache : List CFNode
  functions : List (String × Nat × Nat)
deriving DecidableEq, Repr, Inhabited

/-- Look up the node registered under rid `r` (total; rids produced by the
build are always in range). -/
def CFState.node (st : CFState) (r : Nat) : CFNode :=
  st.cache.getD r default

/-- Apply `f` to the node registered under rid `r` (out-of-range: no-op,
unreachable in the modelled builds). -/
def CFState.modifyNode (st : CFState) (r : Nat) (f : CFNode → CFNode) : CFState :=
  { st with cache := st.cache.set r (f (st.cache.getD r default)) }

/-- `ControlFlowRegistry.reset`: the method body assigns plain local variables
`registry = 0` and `cache = {}` rather than `cls.registry`/`cls.cache`, so the
class-level registry state is left untouched. -/
def ControlFlowRegistry.reset (cache : List CFNode) : List CFNode :=
  cache

/-- `ControlFlowNode.__init__` + `ControlFlowRegistry.register`: assign the
next rid, place the node in the cache, and run `update_children(parents)`
(each listed parent gains this node as a child); the node itself starts with
empty `children` and `calls`.  Returns the updated state and the new rid. -/
def newNode (parents : List Nat) (src : String) (st : CFState) : CFState × Nat :=
  let rid := st.cache.length
  let nd : CFNode :=
    { rid := rid, parents := parents, children := [], calls := [], src := src,
      calllink := none, return_nodes := none, calleelink := false,
      fn_exit_node := false }
  let st1 : CFState := { st with cache := st.cache ++ [nd] }
  (parents.foldl (fun s p => s.modifyNode p (fun n => n.addChild rid)) st1, rid)

/-- `get_func` from `on_call`, applied to the callee expression `node.func`:
a `Name` yields its id, an `Attribute` its attribute name, a nested `Call`
recurses on its own callee, a `BoolOp` yields the operator object, and any
other kind raises. -/
def get_func : PyExpr → Except String Callee
  | .name id => .ok (.name id)
  | .attributeRef _ a => .ok (.name a)
  | .call f _ => get_func f
  | .boolop op => .ok (.opObj op)
  | .other k => .error ("Exception: " ++ k)

mutual
/-- `ControlFlow.walk` on expressions.  Only `Call` has a handler (`on_call`):
walk the arguments first, discover the callee with `get_func`, append it to
`myparents[0].calls`, then set `calllink = 0` on every frontier node.  Every
other expression kind has no `on_...` handler, so `walk` returns the frontier
unchanged. -/
def walkExpr : PyExpr → List Nat → CFState → Except String (CFState × List Nat)
  | .call f args, myparents, st =>
      match walkExprs args myparents st with
      | .error e => .error e
      | .ok (st1, p) =>
          match get_func f with
          | .error e => .error e
          | .ok mid =>
              match myparents with
              | [] => .error ("IndexError")
              | m0 :: _ =>
                  let st2 := st1.modifyNode m0 (fun n => n.addCalls mid)
                  let st3 := p.foldl
                    (fun s c => s.modifyNode c (fun n => { n with calllink := some 0 })) st2
                  .ok (st3, p)
  | _, myparents, st => .ok (st, myparents)

/-- The `for a in node.args: p = self.walk(a, p)` loop of `on_call`. -/
def walkExprs : List PyExpr → List Nat → CFState → Except String (CFState × List Nat)
  | [], p, st => .ok (st, p)
  | a :: rest, p, st =>
      match walkExpr a p st with
      | .error e => .error e
      | .ok (st1, p1) => walkExprs rest p1 st1
end

/-- The `for n in p: if n not in enter_node.return_nodes: append` loop of
`on_functiondef`: record the body-ending frontier as implicit return nodes. -/
def collectReturns (enterRid : Nat) (p : List Nat) (st : CFState) : CFState :=
  p.foldl
    (fun s n =>
      let rn := ((s.node enterRid).return_nodes).getD []
      if n ∈ rn then s
      else s.modifyNode enterRid
        (fun nd => { nd with return_nodes := some (rn ++ [n]) }))
    st

/-- The `for n in enter_node.return_nodes: exit_node.add_parent(n)` loop of
`on_functiondef`. -/
def addExitParents (exitRid : Nat) (rn : List Nat) (st : CFState) : CFState :=
  rn.foldl (fun s n => s.modifyNode exitRid (fun nd => nd.addParent n)) st

/-- The prologue of `on_functiondef`: create the `enter` and `exit` sentinels
(no parents), tag them (`calleelink`, `fn_exit_node`) and give `enter` an empty
`return_nodes` list.  Returns the new state with the two fresh rids. -/
def functionSentinels (fname : String) (args : List String) (st : CFState) :
    CFState × Nat × Nat :=
  let rE := newNode [] (renderEnter fname args) st
  let enterRid := rE.2
  let stE := rE.1.modifyNode enterRid
    (fun n => { n with calleelink := true, return_nodes := some [] })
  let rX := newNode [] (renderExit fname args) stE
  let exitRid := rX.2
  let stX := rX.1.modifyNode exitRid (fun n => { n with fn_exit_node := true })
  (stX, enterRid, exitRid)

/-- The epilogue of `on_functiondef`: collect the body-ending frontier into
`enter.return_nodes`, make every return node a parent of `exit`, and register
the pair under the function name. -/
def finishFunctionDef (fname : String) (enterRid exitRid : Nat) (stB : CFState)
    (p : List Nat) : CFState :=
  let stR := collectReturns enterRid p stB
  let rn := ((stR.node enterRid).return_nodes).getD []
  let stF := addExitParents exitRid rn stR
  { stF with functions := (fname, enterRid, exitRid) :: stF.functions }

mutual
/-- `ControlFlow.walk` on statements: dispatch to the `on_...` handler of the
statement kind (`on_assign`, `on_pass`, `on_expr`, `on_functiondef`). -/
def walkStmt : PyStmt → List Nat → CFState → Except String (CFState × List Nat)
  | .assign targets value, myparents, st =>
      -- on_assign: parallel assignments raise NotImplementedError
      if targets.length > 1 then .error ("NotImplementedError: Parallel assignments")
      else
        let r1 := newNode myparents (renderStmt (.assign targets value)) st
        walkExpr value [r1.2] r1.1
  | .pass, myparents, st =>
      -- on_pass
      let r1 := newNode myparents (renderStmt .pass) st
      .ok (r1.1, [r1.2])
  | .exprStmt value, myparents, st =>
      -- on_expr: create the statement node, then walk the value from it
      let r1 := newNode myparents (renderStmt (.exprStmt value)) st
      walkExpr value [r1.2] r1.1
  | .functiondef fname args body, myparents, st =>
      -- on_functiondef: enter/exit sentinels with no parents, walk the body
      -- from [enter], collect return nodes, parent exit on them, register the
      -- pair, and return the surrounding frontier unchanged.
      let sen := functionSentinels fname args st
      match walkStmts body [sen.2.1] sen.1 with
      | .error e => .error e
      | .ok (stB, p) =>
          .ok (finishFunctionDef fname sen.2.1 sen.2.2 stB p, myparents)

/-- `on_module`: fold the frontier through the statement sequence. -/
def walkStmts : List PyStmt → List Nat → CFState → Except String (CFState × List Nat)
  | [], p, st => .ok (st, p)
  | s :: rest, p, st =>
      match walkStmt s p st with
      | .error e => .error e
      | .ok (st1, p1) => walkStmts rest p1 st1
end

/-- The outer loop of `ControlFlow.update_children` over the listed rids. -/
def updateChildrenFrom : List Nat → CFState → CFState
  | [], st => st
  | nid :: rest, st =>
      updateChildrenFrom rest
        (((st.node nid).parents).foldl
          (fun s2 p => s2.modifyNode p (fun n => n.addChild nid)) st)

/-- `ControlFlow.update_children`: for every node in the cache, make each of
its parents record it as a child. -/
def ControlFlow.update_children (st : CFState) : CFState :=
  updateChildrenFrom (List.range st.cache.length) st

/-- The body of the inner `for calls in node.calls` loop of
`ControlFlow.link_functions`: if the callee is a registered function name,
the call node becomes a parent of the callee's `enter`; then, if the call node
currently has children, assert `calllink > -1`, increment `calllink`, and make
the callee's `exit` a parent of every one of those children.  (An operator
object recorded by a `BoolOp` callee is never a key of `functions`.) -/
def linkCall (nid : Nat) (st : CFState) (c : Callee) : Except String CFState :=
  match c with
  | .opObj _ => .ok st
  | .name s =>
      match st.functions.lookup s with
      | none => .ok st
      | some (enterR, exitR) =>
          let st1 := st.modifyNode enterR (fun n => n.addParent nid)
          let nd := st1.node nid
          match nd.children with
          | [] => .ok st1
          | _ =>
              match nd.calllink with
              | none => .error ("AttributeError: calllink")
              | some v =>
                  if v > -1 then
                    let st2 := st1.modifyNode nid
                      (fun n => { n with calllink := some (v + 1) })
                    .ok (nd.children.foldl
                      (fun s2 i => s2.modifyNode i (fun n => n.addParent exitR)) st2)
                  else .error ("AssertionError")

/-- The inner `for calls in node.calls` loop of `ControlFlow.link_functions`. -/
def linkCallsOf (nid : Nat) : List Callee → CFState → Except String CFState
  | [], st => .ok st
  | c :: rest, st =>
      match linkCall nid st c with
      | .error e => .error e
      | .ok st2 => linkCallsOf nid rest st2

/-- The outer `for nid, node in ControlFlowRegistry.cache.items()` loop of
`ControlFlow.link_functions` (Python iterates the dense rid keys in order). -/
def linkNodesFrom : List Nat → CFState → Except String CFState
  | [], st => .ok st
  | nid :: rest, st =>
      let nd := st.node nid
      match nd.calls with
      | [] => linkNodesFrom rest st
      | _ =>
          match linkCallsOf nid nd.calls st with
          | .error e => .error e
          | .ok st2 => linkNodesFrom rest st2

/-- `ControlFlow.link_functions`: the post-pass over the registry cache and
each node's recorded calls. -/
def ControlFlow.link_functions (st : CFState) : Except String CFState :=
  linkNodesFrom (List.range st.cache.length) st

/-- `ControlFlow.update_functions` fills the `functions_node` memo table
(line number ↦ enclosing function name) via `get_defining_function`; nothing
modelled here reads that table, so on the modelled state it is the identity. -/
def ControlFlow.update_functions (st : CFState) : CFState :=
  st

/-- The result of one `ControlFlow` build: the final registry/functions state
plus the rids of the `start` (founder) and `stop` sentinels. -/
structure BuildResult where
  state : CFState
  founder : Nat
  stop : Nat
deriving DecidableEq, Repr, Inhabited

/-- The walk phase of `ControlFlow.generate_control_flow`: create the founder
sentinel (`ControlFlow.__init__`, with an empty `functions` table), walk the
module body from it, and attach the `stop` sentinel to the final frontier.
`initCache` is the registry cache left over from earlier builds (the
process-wide `ControlFlowRegistry.cache`). -/
def buildWalk (prog : List PyStmt) (initCache : List CFNode) :
    Except String (CFState × Nat × Nat) :=
  let st0 : CFState := { cache := initCache, functions := [] }
  let r1 := newNode [] ("start") st0
  match walkStmts prog [r1.2] r1.1 with
  | .error e => .error e
  | .ok (st2, nodes) =>
      let r3 := newNode nodes ("stop") st2
      .ok (r3.1, r1.2, r3.2)

/-- `ControlFlow.generate_control_flow`: walk, recompute children, fill the
function memo, then link calls. -/
def ControlFlow.generate_control_flow (prog : List PyStmt) (initCache : List CFNode) :
    Except String BuildResult :=
  match buildWalk prog initCache with
  | .error e => .error e
  | .ok (st3, founderRid, stopRid) =>
      let st4 := ControlFlow.update_children st3
      let st5 := ControlFlow.update_functions st4
      match ControlFlow.link_functions st5 with
      | .error e => .error e
      | .ok st6 => .ok { state := st6, founder := founderRid, stop := stopRid }

/-- The module-level `generate_control_flow(source_code, remove_start_stop)`:
call `ControlFlowRegistry.reset()` (a no-op), run a fresh `ControlFlow` build
on the process-wide cache, snapshot the cache as an id-keyed mapping, and, when
`remove_start_stop` is set, drop every entry whose rendered source text is
`"start"` or `"stop"`. -/
def generate_control_flow (prog : List PyStmt) (remove_start_stop : Bool)
    (processCache : List CFNode) : Except String (List (Nat × CFNode)) :=
  let cache0 := ControlFlowRegistry.reset processCache
  match ControlFlow.generate_control_flow prog cache0 with
  | .error e => .error e
  | .ok r =>
      let cache := (List.range r.state.cache.length).map (fun k => (k, r.state.node k))
      if remove_start_stop then
        .ok (cache.filter (fun kv => !(kv.2.src == "start" || kv.2.src == "stop")))
      else
        .ok cache

/-!
## Dominator analyzer

`compute_dominator(control_flow, start, key)` iterates over the keys of the
`control_flow` dict and, for each node, over `control_flow[n][key]` (the
predecessor ids under the chosen direction).  The embedding abstracts that dict
as a key list (in iteration order) together with the chosen predecessor
function. -/

/-- The input of `compute_dominator`: the keys of the `control_flow` mapping
and the chosen predecessor relation (`control_flow[n][key]`). -/
structure DomGraph where
  nodes : List Nat
  preds : Nat → List Nat

/-- `dominator[start] = {start}; for n in rem_nodes: dominator[n] = all_nodes`. -/
def domInit (g : DomGraph) (start : Nat) : Nat → Finset Nat :=
  fun n => if n = start then {start} else g.nodes.toFinset

/-- Write one entry of the dominator map. -/
def domWrite (dom : Nat → Finset Nat) (n : Nat) (v : Finset Nat) : Nat → Finset Nat :=
  fun m => if m = n then v else dom m

/-- The loop body: `v = {n} | set.intersection(*doms)` with the empty
intersection read as the empty set. -/
def domUpdate (g : DomGraph) (dom : Nat → Finset Nat) (n : Nat) : Finset Nat :=
  let doms := (g.preds n).map dom
  let i : Finset Nat :=
    match doms with
    | [] => ∅
    | d :: ds => ds.foldl (fun a b => a ∩ b) d
  {n} ∪ i

/-- One full pass of the fixpoint loop over `rem_nodes`, returning the updated
map together with the `c` flag (`True` iff some entry changed). -/
def domPass (g : DomGraph) (start : Nat) (dom : Nat → Finset Nat) :
    (Nat → Finset Nat) × Bool :=
  (g.nodes.filter (fun n => n ≠ start)).foldl
    (fun acc n =>
      let v := domUpdate g acc.1 n
      (domWrite acc.1 n v, acc.2 || decide (acc.1 n ≠ v)))
    (dom, false)

/-- `while c:` — repeat passes until one reports no change.  The source loop
carries no fuel; `compute_dominator` supplies enough fuel for the loop to
reach its fixpoint (proved below), so this equals the unbounded loop. -/
def domLoop (g : DomGraph) (start : Nat) : Nat → (Nat → Finset Nat) → (Nat → Finset Nat)
  | 0, dom => dom
  | fuel + 1, dom =>
      let r := domPass g start dom
      if r.2 then domLoop g start fuel r.1 else r.1

/-- `compute_dominator(control_flow, start, key)`. -/
def compute_dominator (g : DomGraph) (start : Nat) : Nat → Finset Nat :=
  domLoop g start (g.nodes.length * g.nodes.length + 1) (domInit g start)

/-- Reachability from `start` along the chosen predecessor relation: there is
an edge `p → n` whenever `p ∈ preds n`. -/
def domReachable (g : DomGraph) (start n : Nat) : Prop :=
  Relation.ReflTransGen (fun a b => a ∈ g.preds b) start n

/-!
## Basic facts about the node and state primitives
-/

theorem CFNode.addChild_parents (n : CFNode) (c : Nat) :
    (n.addChild c).parents = n.parents := by
  unfold CFNode.addChild; split <;> rfl

theorem CFNode.addChild_calls (n : CFNode) (c : Nat) :
    (n.addChild c).calls = n.calls := by
  unfold CFNode.addChild; split <;> rfl

theorem CFNode.addChild_calllink (n : CFNode) (c : Nat) :
    (n.addChild c).calllink = n.calllink := by
  unfold CFNode.addChild; split <;> rfl

theorem CFNode.addChild_return_nodes (n : CFNode) (c : Nat) :
    (n.addChild c).return_nodes = n.return_nodes := by
  unfold CFNode.addChild; split <;> rfl

theorem CFNode.addChild_src (n : CFNode) (c : Nat) :
    (n.addChild c).src = n.src := by
  unfold CFNode.addChild; split <;> rfl

theorem CFNode.mem_addChild_self (n : CFNode) (c : Nat) :
    c ∈ (n.addChild c).children := by
  unfold CFNode.addChild; split
  · assumption
  · simp

theorem CFNode.mem_addChild_mono (n : CFNode) (c x : Nat) (h : x ∈ n.children) :
    x ∈ (n.addChild c).children := by
  unfold CFNode.addChild; split
  · exact h
  · simp [h]

theorem CFNode.mem_addChild_elim (n : CFNode) (c x : Nat)
    (h : x ∈ (n.addChild c).children) : x ∈ n.children ∨ x = c := by
  unfold CFNode.addChild at h; split at h
  · exact Or.inl h
  · simpa using h

theorem CFNode.addParent_children (n : CFNode) (p : Nat) :
    (n.addParent p).children = n.children := by
  unfold CFNode.addParent; split <;> rfl

theorem CFNode.addParent_calls (n : CFNode) (p : Nat) :
    (n.addParent p).calls = n.calls := by
  unfold CFNode.addParent; split <;> rfl

theorem CFNode.addParent_calllink (n : CFNode) (p : Nat) :
    (n.addParent p).calllink = n.calllink := by
  unfold CFNode.addParent; split <;> rfl

theorem CFNode.addParent_return_nodes (n : CFNode) (p : Nat) :
    (n.addParent p).return_nodes = n.return_nodes := by
  unfold CFNode.addParent; split <;> rfl

theorem CFNode.addParent_src (n : CFNode) (p : Nat) :
    (n.addParent p).src = n.src := by
  unfold CFNode.addParent; split <;> rfl

theorem CFNode.mem_addParent_self (n : CFNode) (p : Nat) :
    p ∈ (n.addParent p).parents := by
  unfold CFNode.addParent; split
  · assumption
  · simp

theorem CFNode.mem_addParent_mono (n : CFNode) (p x : Nat) (h : x ∈ n.parents) :
    x ∈ (n.addParent p).parents := by
  unfold CFNode.addParent; split
  · exact h
  · simp [h]

theorem CFNode.mem_addParent_elim (n : CFNode) (p x : Nat)
    (h : x ∈ (n.addParent p).parents) : x ∈ n.parents ∨ x = p := by
  unfold CFNode.addParent at h; split at h
  · exact Or.inl h
  · simpa using h

theorem CFNode.addCalls_parents (n : CFNode) (c : Callee) :
    (n.addCalls c).parents = n.parents := rfl

theorem CFNode.addCalls_children (n : CFNode) (c : Callee) :
    (n.addCalls c).children = n.children := rfl

theorem CFNode.addCalls_return_nodes (n : CFNode) (c : Callee) :
    (n.addCalls c).return_nodes = n.return_nodes := rfl

theorem CFState.length_modifyNode (st : CFState) (q : Nat) (f : CFNode → CFNode) :
    (st.modifyNode q f).cache.length = st.cache.length := by
  simp [CFState.modifyNode]

theorem CFState.functions_modifyNode (st : CFState) (q : Nat) (f : CFNode → CFNode) :
    (st.modifyNode q f).functions = st.functions := rfl

theorem CFState.node_of_le (st : CFState) (r : Nat) (h : st.cache.length ≤ r) :
    st.node r = default := by
  simp [CFState.node, List.getD_eq_getElem?_getD, List.getElem?_eq_none h]

theorem CFState.modifyNode_of_le (st : CFState) (q : Nat) (f : CFNode → CFNode)
    (h : st.cache.length ≤ q) : st.modifyNode q f = st := by
  simp [CFState.modifyNode, List.set_eq_of_length_le h]

/-- The master description of a node read after a single node modification. -/
theorem CFState.node_modifyNode (st : CFState) (q : Nat) (f : CFNode → CFNode) (r : Nat) :
    (st.modifyNode q f).node r =
      if q < st.cache.length ∧ r = q then f (st.node q) else st.node r := by
  by_cases hq : q < st.cache.length
  · by_cases hr : r = q
    · subst hr
      simp [CFState.modifyNode, CFState.node, List.getD_eq_getElem?_getD,
        List.getElem?_set_self hq, hq]
    · have : q ≠ r := fun hh => hr hh.symm
      simp [CFState.modifyNode, CFState.node, List.getD_eq_getElem?_getD,
        List.getElem?_set_ne this, hr]
  · rw [CFState.modifyNode_of_le st q f (Nat.le_of_not_lt hq)]
    simp [hq]

/-- A modification that leaves a projection of the node unchanged leaves that
projection unchanged at every rid. -/
theorem CFState.node_modifyNode_proj {α : Type} (proj : CFNode → α) (st : CFState)
    (q : Nat) (f : CFNode → CFNode) (hf : ∀ n, proj (f n) = proj n) (r : Nat) :
    proj ((st.modifyNode q f).node r) = proj (st.node r) := by
  rw [CFState.node_modifyNode]
  split
  · next h => rw [hf, h.2]
  · rfl

/-- Folds that modify one node per element keep the cache length. -/
theorem modifyEachFold_length (l : List Nat) (f : CFNode → CFNode) (st : CFState) :
    (l.foldl (fun s p => s.modifyNode p f) st).cache.length = st.cache.length := by
  induction l generalizing st with
  | nil => rfl
  | cons p rest ih => rw [List.foldl_cons, ih, CFState.length_modifyNode]

/-- Folds that modify one node per element keep the functions table. -/
theorem modifyEachFold_functions (l : List Nat) (f : CFNode → CFNode) (st : CFState) :
    (l.foldl (fun s p => s.modifyNode p f) st).functions = st.functions := by
  induction l generalizing st with
  | nil => rfl
  | cons p rest ih => rw [List.foldl_cons, ih, CFState.functions_modifyNode]

/-- Folds whose per-node modification leaves a projection unchanged leave that
projection unchanged at every rid. -/
theorem modifyEachFold_proj {α : Type} (proj : CFNode → α) (l : List Nat)
    (f : CFNode → CFNode) (hf : ∀ n, proj (f n) = proj n) (st : CFState) (r : Nat) :
    proj ((l.foldl (fun s p => s.modifyNode p f) st).node r) = proj (st.node r) := by
  induction l generalizing st with
  | nil => rfl
  | cons p rest ih =>
      rw [List.foldl_cons, ih, CFState.node_modifyNode_proj proj st p f hf r]

theorem newNode_rid (ps : List Nat) (src : String) (st : CFState) :
    (newNode ps src st).2 = st.cache.length := rfl

theorem newNode_length (ps : List Nat) (src : String) (st : CFState) :
    (newNode ps src st).1.cache.length = st.cache.length + 1 := by
  unfold newNode
  rw [modifyEachFold_length]
  simp

theorem newNode_functions (ps : List Nat) (src : String) (st : CFState) :
    (newNode ps src st).1.functions = st.functions := by
  unfold newNode
  rw [modifyEachFold_functions]

/-!
Facts about the `for p in parents: p.add_child(self)` fold (shared by node
construction and `update_children`).
-/

theorem addChildFold_children_not (l : List Nat) (c : Nat) (st : CFState) (r : Nat)
    (hr : r ∉ l) :
    ((l.foldl (fun s p => s.modifyNode p (fun n => n.addChild c)) st).node r).children
      = (st.node r).children := by
  induction l generalizing st with
  | nil => rfl
  | cons p rest ih =>
      rw [List.foldl_cons, ih _ (fun h => hr (List.mem_cons_of_mem _ h)),
        CFState.node_modifyNode]
      split
      · next h => exact absurd (h.2 ▸ List.mem_cons_self p rest) hr
      · rfl

theorem addChildFold_children_mono (l : List Nat) (c : Nat) (st : CFState) (r x : Nat)
    (hx : x ∈ (st.node r).children) :
    x ∈ ((l.foldl (fun s p => s.modifyNode p (fun n => n.addChild c)) st).node r).children := by
  induction l generalizing st with
  | nil => exact hx
  | cons p rest ih =>
      rw [List.foldl_cons]
      refine ih _ ?_
      rw [CFState.node_modifyNode]
      split
      · next h => exact CFNode.mem_addChild_mono _ _ _ (h.2 ▸ hx)
      · exact hx

theorem addChildFold_children_elim (l : List Nat) (c : Nat) (st : CFState) (r x : Nat)
    (hx : x ∈ ((l.foldl (fun s p => s.modifyNode p (fun n => n.addChild c)) st).node r).children) :
    x ∈ (st.node r).children ∨ x = c := by
  induction l generalizing st with
  | nil => exact Or.inl hx
  | cons p rest ih =>
      rw [List.foldl_cons] at hx
      rcases ih _ hx with h | h
      · rw [CFState.node_modifyNode] at h
        split at h
        · next hcase =>
            rcases CFNode.mem_addChild_elim _ _ _ h with h2 | h2
            · exact Or.inl (hcase.2 ▸ h2)
            · exact Or.inr h2
        · exact Or.inl h
      · exact Or.inr h

theorem addChildFold_children_self (l : List Nat) (c : Nat) (st : CFState) (r : Nat)
    (hr : r ∈ l) (hlen : r < st.cache.length) :
    c ∈ ((l.foldl (fun s p => s.modifyNode p (fun n => n.addChild c)) st).node r).children := by
  induction l generalizing st with
  | nil => cases hr
  | cons p rest ih =>
      rw [List.foldl_cons]
      rcases List.mem_cons.mp hr with h | h
      · subst h
        refine addChildFold_children_mono rest c _ r c ?_
        rw [CFState.node_modifyNode]
        simp only [hlen, and_true, if_pos rfl]
        exact CFNode.mem_addChild_self _ _
      · exact ih _ h (by rw [CFState.length_modifyNode]; exact hlen)

/-!
Description of the node freshly registered by `newNode`, and of the
previously registered nodes after `newNode`.
-/

theorem newNode_base_node (st : CFState) (nd : CFNode) (r : Nat)
    (hr : r ≠ st.cache.length) :
    (({ st with cache := st.cache ++ [nd] } : CFState).node r) = st.node r := by
  rcases Nat.lt_or_ge r st.cache.length with h | h
  · simp [CFState.node, List.getD_eq_getElem?_getD, List.getElem?_append_left h]
  · have h2 : st.cache.length < r := Nat.lt_of_le_of_ne h (fun hh => hr hh.symm)
    simp [CFState.node, List.getD_eq_getElem?_getD, List.getElem?_eq_none h2.le,
      List.getElem?_eq_none (show (st.cache ++ [nd]).length ≤ r by simpa using h2)]

theorem newNode_base_node_new (st : CFState) (nd : CFNode) :
    (({ st with cache := st.cache ++ [nd] } : CFState).node st.cache.length) = nd := by
  simp [CFState.node, List.getD_eq_getElem?_getD, List.getElem?_concat_length]

theorem newNode_parents_ne (ps : List Nat) (src : String) (st : CFState) (r : Nat)
    (hr : r ≠ st.cache.length) :
    ((newNode ps src st).1.node r).parents = (st.node r).parents := by
  unfold newNode
  rw [modifyEachFold_proj CFNode.parents ps _ (fun n => CFNode.addChild_parents n _) _ r,
    newNode_base_node st _ r hr]

theorem newNode_calls_ne (ps : List Nat) (src : String) (st : CFState) (r : Nat)
    (hr : r ≠ st.cache.length) :
    ((newNode ps src st).1.node r).calls = (st.node r).calls := by
  unfold newNode
  rw [modifyEachFold_proj CFNode.calls ps _ (fun n => CFNode.addChild_calls n _) _ r,
    newNode_base_node st _ r hr]

theorem newNode_calllink_ne (ps : List Nat) (src : String) (st : CFState) (r : Nat)
    (hr : r ≠ st.cache.length) :
    ((newNode ps src st).1.node r).calllink = (st.node r).calllink := by
  unfold newNode
  rw [modifyEachFold_proj CFNode.calllink ps _ (fun n => CFNode.addChild_calllink n _) _ r,
    newNode_base_node st _ r hr]

theorem newNode_return_nodes_ne (ps : List Nat) (src : String) (st : CFState) (r : Nat)
    (hr : r ≠ st.cache.length) :
    ((newNode ps src st).1.node r).return_nodes = (st.node r).return_nodes := by
  unfold newNode
  rw [modifyEachFold_proj CFNode.return_nodes ps _ (fun n => CFNode.addChild_return_nodes n _) _ r,
    newNode_base_node st _ r hr]

theorem newNode_src_ne (ps : List Nat) (src : String) (st : CFState) (r : Nat)
    (hr : r ≠ st.cache.length) :
    ((newNode ps src st).1.node r).src = (st.node r).src := by
  unfold newNode
  rw [modifyEachFold_proj CFNode.src ps _ (fun n => CFNode.addChild_src n _) _ r,
    newNode_base_node st _ r hr]

theorem newNode_parents_new (ps : List Nat) (src : String) (st : CFState) :
    ((newNode ps src st).1.node st.cache.length).parents = ps := by
  unfold newNode
  rw [modifyEachFold_proj CFNode.parents ps _ (fun n => CFNode.addChild_parents n _) _ _,
    newNode_base_node_new]

theorem newNode_calls_new (ps : List Nat) (src : String) (st : CFState) :
    ((newNode ps src st).1.node st.cache.length).calls = [] := by
  unfold newNode
  rw [modifyEachFold_proj CFNode.calls ps _ (fun n => CFNode.addChild_calls n _) _ _,
    newNode_base_node_new]

theorem newNode_calllink_new (ps : List Nat) (src : String) (st : CFState) :
    ((newNode ps src st).1.node st.cache.length).calllink = none := by
  unfold newNode
  rw [modifyEachFold_proj CFNode.calllink ps _ (fun n => CFNode.addChild_calllink n _) _ _,
    newNode_base_node_new]

theorem newNode_return_nodes_new (ps : List Nat) (src : String) (st : CFState) :
    ((newNode ps src st).1.node st.cache.length).return_nodes = none := by
  unfold newNode
  rw [modifyEachFold_proj CFNode.return_nodes ps _ (fun n => CFNode.addChild_return_nodes n _) _ _,
    newNode_base_node_new]

theorem newNode_src_new (ps : List Nat) (src : String) (st : CFState) :
    ((newNode ps src st).1.node st.cache.length).src = src := by
  unfold newNode
  rw [modifyEachFold_proj CFNode.src ps _ (fun n => CFNode.addChild_src n _) _ _,
    newNode_base_node_new]

theorem newNode_children_new (ps : List Nat) (src : String) (st : CFState)
    (h : st.cache.length ∉ ps) :
    ((newNode ps src st).1.node st.cache.length).children = [] := by
  unfold newNode
  rw [addChildFold_children_not ps _ _ _ h, newNode_base_node_new]

/-!
General facts about folds of single-node modifications, and about the
`add_parent` folds used by `on_functiondef` and `link_functions`.
-/

theorem modifyGenFold_length {β : Type} (l : List β) (tgt : β → Nat)
    (f : β → CFNode → CFNode) (st : CFState) :
    (l.foldl (fun s b => s.modifyNode (tgt b) (f b)) st).cache.length
      = st.cache.length := by
  induction l generalizing st with
  | nil => rfl
  | cons b rest ih => rw [List.foldl_cons, ih, CFState.length_modifyNode]

theorem modifyGenFold_functions {β : Type} (l : List β) (tgt : β → Nat)
    (f : β → CFNode → CFNode) (st : CFState) :
    (l.foldl (fun s b => s.modifyNode (tgt b) (f b)) st).functions
      = st.functions := by
  induction l generalizing st with
  | nil => rfl
  | cons b rest ih => rw [List.foldl_cons, ih, CFState.functions_modifyNode]

theorem modifyGenFold_proj {α β : Type} (proj : CFNode → α) (l : List β)
    (tgt : β → Nat) (f : β → CFNode → CFNode) (hf : ∀ b n, proj (f b n) = proj n)
    (st : CFState) (r : Nat) :
    proj ((l.foldl (fun s b => s.modifyNode (tgt b) (f b)) st).node r)
      = proj (st.node r) := by
  induction l generalizing st with
  | nil => rfl
  | cons b rest ih =>
      rw [List.foldl_cons, ih, CFState.node_modifyNode_proj proj st (tgt b) (f b) (hf b) r]

theorem addParentEachFold_parents_mono (l : List Nat) (x : Nat) (st : CFState)
    (r y : Nat) (hy : y ∈ (st.node r).parents) :
    y ∈ ((l.foldl (fun s i => s.modifyNode i (fun n => n.addParent x)) st).node r).parents := by
  induction l generalizing st with
  | nil => exact hy
  | cons i rest ih =>
      rw [List.foldl_cons]
      refine ih _ ?_
      rw [CFState.node_modifyNode]
      split
      · next h => exact CFNode.mem_addParent_mono _ _ _ (h.2 ▸ hy)
      · exact hy

theorem addParentEachFold_parents_elim (l : List Nat) (x : Nat) (st : CFState)
    (r y : Nat)
    (hy : y ∈ ((l.foldl (fun s i => s.modifyNode i (fun n => n.addParent x)) st).node r).parents) :
    y ∈ (st.node r).parents ∨ y = x := by
  induction l generalizing st with
  | nil => exact Or.inl hy
  | cons i rest ih =>
      rw [List.foldl_cons] at hy
      rcases ih _ hy with h | h
      · rw [CFState.node_modifyNode] at h
        split at h
        · next hcase =>
            rcases CFNode.mem_addParent_elim _ _ _ h with h2 | h2
            · exact Or.inl (hcase.2 ▸ h2)
            · exact Or.inr h2
        · exact Or.inl h
      · exact Or.inr h

theorem addParentEachFold_parents_self (l : List Nat) (x : Nat) (st : CFState)
    (r : Nat) (hr : r ∈ l) (hlen : r < st.cache.length) :
    x ∈ ((l.foldl (fun s i => s.modifyNode i (fun n => n.addParent x)) st).node r).parents := by
  induction l generalizing st with
  | nil => cases hr
  | cons i rest ih =>
      rw [List.foldl_cons]
      rcases List.mem_cons.mp hr with h | h
      · subst h
        refine addParentEachFold_parents_mono rest x _ r x ?_
        rw [CFState.node_modifyNode]
        simp only [hlen, and_true, if_pos rfl]
        exact CFNode.mem_addParent_self _ _
      · exact ih _ h (by rw [CFState.length_modifyNode]; exact hlen)

theorem addParentsToFold_parents_ne (l : List Nat) (q : Nat) (st : CFState) (r : Nat)
    (hr : r ≠ q) :
    ((l.foldl (fun s n => s.modifyNode q (fun nd => nd.addParent n)) st).node r).parents
      = (st.node r).parents := by
  induction l generalizing st with
  | nil => rfl
  | cons n rest ih =>
      rw [List.foldl_cons, ih, CFState.node_modifyNode]
      split
      · next h => exact absurd h.2 hr
      · rfl

theorem addParentsToFold_parents_elim (l : List Nat) (q : Nat) (st : CFState) (y : Nat)
    (hy : y ∈ ((l.foldl (fun s n => s.modifyNode q (fun nd => nd.addParent n)) st).node q).parents) :
    y ∈ (st.node q).parents ∨ y ∈ l := by
  induction l generalizing st with
  | nil => exact Or.inl hy
  | cons n rest ih =>
      rw [List.foldl_cons] at hy
      rcases ih _ hy with h | h
      · rw [CFState.node_modifyNode] at h
        split at h
        · rcases CFNode.mem_addParent_elim _ _ _ h with h2 | h2
          · exact Or.inl h2
          · exact Or.inr (h2 ▸ List.mem_cons_self n rest)
        · exact Or.inl h
      · exact Or.inr (List.mem_cons_of_mem n h)

/-!
The central graph invariant: every recorded child edge has a matching parent
edge (the `children` relation is contained in the inverse of `parents`), and
children rids are registered.
-/

def InvJ (st : CFState) : Prop :=
  ∀ p, p < st.cache.length → ∀ c ∈ (st.node p).children,
    c < st.cache.length ∧ p ∈ (st.node c).parents

/-- Transport `InvJ` along pointwise equality of the graph fields. -/
theorem InvJ_congr (st st' : CFState)
    (hlen : st'.cache.length = st.cache.length)
    (hpar : ∀ r, (st'.node r).parents = (st.node r).parents)
    (hch : ∀ r, (st'.node r).children = (st.node r).children)
    (h : InvJ st) : InvJ st' := by
  intro p hp c hc
  rw [hlen] at hp
  rw [hch] at hc
  rcases h p hp c hc with ⟨h1, h2⟩
  exact ⟨hlen ▸ h1, (hpar c) ▸ h2⟩

/-- A single-node modification that keeps children and can only grow parents
preserves `InvJ`. -/
theorem InvJ_modifyNode (st : CFState) (q : Nat) (f : CFNode → CFNode)
    (hch : ∀ n, (f n).children = n.children)
    (hpar : ∀ n x, x ∈ n.parents → x ∈ (f n).parents)
    (h : InvJ st) : InvJ (st.modifyNode q f) := by
  intro p hp c hc
  rw [CFState.length_modifyNode] at hp
  have hc2 : c ∈ (st.node p).children := by
    rw [CFState.node_modifyNode] at hc
    split at hc
    · next hcase => rw [hcase.2]; rw [hch] at hc; exact hc
    · exact hc
  rcases h p hp c hc2 with ⟨h1, h2⟩
  refine ⟨by rw [CFState.length_modifyNode]; exact h1, ?_⟩
  rw [CFState.node_modifyNode]
  split
  · next hcase => exact hpar _ _ (hcase.2 ▸ h2)
  · exact h2

/-!
Expression walking returns the frontier unchanged and modifies only the
`calls` and `calllink` fields of existing nodes: cache length, the functions
table, and every node's `parents`, `children` and `return_nodes` survive.
-/

/-- The conclusion of the expression-walk frame lemmas. -/
def ExprFrame (p : List Nat) (st st' : CFState) (p' : List Nat) : Prop :=
  p' = p ∧ st'.cache.length = st.cache.length ∧ st'.functions = st.functions ∧
  (∀ r, (st'.node r).parents = (st.node r).parents) ∧
  (∀ r, (st'.node r).children = (st.node r).children) ∧
  (∀ r, (st'.node r).return_nodes = (st.node r).return_nodes)

theorem exprFrame_refl (p : List Nat) (st : CFState) : ExprFrame p st st p :=
  ⟨rfl, rfl, rfl, fun _ => rfl, fun _ => rfl, fun _ => rfl⟩

theorem ExprFrame.trans (p : List Nat) (st1 st2 st3 : CFState) (p2 p3 : List Nat)
    (h1 : ExprFrame p st1 st2 p2) (h2 : ExprFrame p2 st2 st3 p3) :
    ExprFrame p st1 st3 p3 := by
  obtain ⟨e1, e2, e3, e4, e5, e6⟩ := h1
  obtain ⟨f1, f2, f3, f4, f5, f6⟩ := h2
  exact ⟨f1.trans e1, f2.trans e2, f3.trans e3,
    fun r => (f4 r).trans (e4 r), fun r => (f5 r).trans (e5 r),
    fun r => (f6 r).trans (e6 r)⟩

mutual
theorem walkExpr_frame (e : PyExpr) (p : List Nat) (st st' : CFState) (p' : List Nat)
    (h : walkExpr e p st = .ok (st', p')) : ExprFrame p st st' p' := by
  cases e with
  | call f args =>
      rw [walkExpr] at h
      rcases hw : walkExprs args p st with err | ⟨st1, p1⟩ <;> rw [hw] at h
      · cases h
      · have frame1 : ExprFrame p st st1 p1 := walkExprs_frame args p st st1 p1 hw
        rcases hg : get_func f with err | mid <;> rw [hg] at h
        · cases h
        · cases p with
          | nil => cases h
          | cons m0 rest =>
              injection h with h
              injection h with h1 h2
              subst h1; subst h2
              refine ExprFrame.trans _ _ _ _ _ _ frame1 ?_
              refine ExprFrame.trans _ _
                (st1.modifyNode m0 (fun n => n.addCalls mid)) _ p1 _ ?_ ?_
              · exact ⟨rfl, (CFState.length_modifyNode _ _ _),
                  (CFState.functions_modifyNode _ _ _),
                  fun r => CFState.node_modifyNode_proj CFNode.parents _ _ _
                    (fun n => CFNode.addCalls_parents n _) r,
                  fun r => CFState.node_modifyNode_proj CFNode.children _ _ _
                    (fun n => CFNode.addCalls_children n _) r,
                  fun r => CFState.node_modifyNode_proj CFNode.return_nodes _ _ _
                    (fun n => CFNode.addCalls_return_nodes n _) r⟩
              · exact ⟨rfl, modifyEachFold_length _ _ _, modifyEachFold_functions _ _ _,
                  fun r => modifyEachFold_proj CFNode.parents p1
                    (fun n => { n with calllink := some 0 }) (fun n => rfl) _ r,
                  fun r => modifyEachFold_proj CFNode.children p1
                    (fun n => { n with calllink := some 0 }) (fun n => rfl) _ r,
                  fun r => modifyEachFold_proj CFNode.return_nodes p1
                    (fun n => { n with calllink := some 0 }) (fun n => rfl) _ r⟩
  | name id =>
      simp only [walkExpr] at h
      injection h with h
      injection h with h1 h2
      subst h1; subst h2
      exact exprFrame_refl p st
  | attributeRef v a =>
      simp only [walkExpr] at h
      injection h with h
      injection h with h1 h2
      subst h1; subst h2
      exact exprFrame_refl p st
  | boolop op =>
      simp only [walkExpr] at h
      injection h with h
      injection h with h1 h2
      subst h1; subst h2
      exact exprFrame_refl p st
  | other k =>
      simp only [walkExpr] at h
      injection h with h
      injection h with h1 h2
      subst h1; subst h2
      exact exprFrame_refl p st

theorem walkExprs_frame (l : List PyExpr) (p : List Nat) (st st' : CFState)
    (p' : List Nat) (h : walkExprs l p st = .ok (st', p')) : ExprFrame p st st' p' := by
  cases l with
  | nil =>
      rw [walkExprs] at h
      injection h with h
      injection h with h1 h2
      subst h1; subst h2
      exact exprFrame_refl p st
  | cons a rest =>
      rw [walkExprs] at h
      rcases hw : walkExpr a p st with err | ⟨st1, p1⟩ <;> rw [hw] at h
      · cases h
      · exact ExprFrame.trans _ _ _ _ _ _ (walkExpr_frame a p st st1 p1 hw)
          (walkExprs_frame rest p1 st1 st' p' h)
end

theorem CFState.node_modifyNode_ne (st : CFState) (q : Nat) (f : CFNode → CFNode)
    (r : Nat) (hr : r ≠ q) : (st.modifyNode q f).node r = st.node r := by
  rw [CFState.node_modifyNode]
  split
  · next h => exact absurd h.2 hr
  · rfl

/-- Registering a fresh node (with any parent list) preserves `InvJ`. -/
theorem InvJ_newNode (ps : List Nat) (src : String) (st : CFState)
    (h : InvJ st) : InvJ (newNode ps src st).1 := by
  intro p hp c hc
  rw [newNode_length] at hp
  by_cases hpn : p = st.cache.length
  · -- the fresh node: its children can only contain entries added by the fold
    subst hpn
    have := addChildFold_children_elim ps st.cache.length _ st.cache.length c
      (by
        unfold newNode at hc
        exact hc)
    rcases this with h2 | h2
    · rw [newNode_base_node_new] at h2
      cases h2
    · subst h2
      refine ⟨by rw [newNode_length]; exact Nat.lt_succ_self _, ?_⟩
      -- c = fresh rid appears in its own children only if rid ∈ ps, and then
      -- rid ∈ parents(rid) = ps as required
      have hmem : st.cache.length ∈ ps := by
        by_contra hnot
        rw [newNode_children_new ps src st hnot] at hc
        cases hc
      rw [newNode_parents_new]
      exact hmem
  · -- a previously registered node
    have hplt : p < st.cache.length := Nat.lt_of_le_of_ne (Nat.lt_succ_iff.mp hp) hpn
    have hc2 := addChildFold_children_elim ps st.cache.length _ p c
      (by unfold newNode at hc; exact hc)
    rw [newNode_base_node st _ p hpn] at hc2
    rcases hc2 with h2 | h2
    · -- an old child edge
      rcases h p hplt c h2 with ⟨h3, h4⟩
      refine ⟨by rw [newNode_length]; exact Nat.lt_succ_of_lt h3, ?_⟩
      rw [newNode_parents_ne ps src st c (Nat.ne_of_lt h3)]
      exact h4
    · -- the freshly added child edge: then p ∈ ps = parents of the fresh node
      subst h2
      refine ⟨by rw [newNode_length]; exact Nat.lt_succ_self _, ?_⟩
      rw [newNode_parents_new]
      -- the fold added the fresh rid to p's children exactly when p ∈ ps
      by_contra hnot
      unfold newNode at hc
      rw [addChildFold_children_not ps st.cache.length _ p hnot,
        newNode_base_node st _ p hpn] at hc
      rcases h p hplt _ hc with ⟨h3, _⟩
      exact absurd rfl (Nat.ne_of_lt h3)

/-!
Facts about the two `on_functiondef` loops.
-/

theorem collectReturns_cons (q n : Nat) (rest : List Nat) (st : CFState) :
    collectReturns q (n :: rest) st =
      collectReturns q rest
        (let rn := ((st.node q).return_nodes).getD []
         if n ∈ rn then st
         else st.modifyNode q (fun nd => { nd with return_nodes := some (rn ++ [n]) })) := rfl

theorem collectReturns_length (q : Nat) (p : List Nat) (st : CFState) :
    (collectReturns q p st).cache.length = st.cache.length := by
  induction p generalizing st with
  | nil => rfl
  | cons n rest ih =>
      rw [collectReturns_cons, ih]
      dsimp only
      split
      · rfl
      · rw [CFState.length_modifyNode]

theorem collectReturns_functions (q : Nat) (p : List Nat) (st : CFState) :
    (collectReturns q p st).functions = st.functions := by
  induction p generalizing st with
  | nil => rfl
  | cons n rest ih =>
      rw [collectReturns_cons, ih]
      dsimp only
      split
      · rfl
      · rw [CFState.functions_modifyNode]

theorem collectReturns_parents (q : Nat) (p : List Nat) (st : CFState) (r : Nat) :
    ((collectReturns q p st).node r).parents = (st.node r).parents := by
  induction p generalizing st with
  | nil => rfl
  | cons n rest ih =>
      rw [collectReturns_cons, ih]
      dsimp only
      split
      · rfl
      · refine CFState.node_modifyNode_proj CFNode.parents st q _ (fun nd => ?_) r
        rfl

theorem collectReturns_children (q : Nat) (p : List Nat) (st : CFState) (r : Nat) :
    ((collectReturns q p st).node r).children = (st.node r).children := by
  induction p generalizing st with
  | nil => rfl
  | cons n rest ih =>
      rw [collectReturns_cons, ih]
      dsimp only
      split
      · rfl
      · refine CFState.node_modifyNode_proj CFNode.children st q _ (fun nd => ?_) r
        rfl

theorem collectReturns_return_nodes_ne (q : Nat) (p : List Nat) (st : CFState)
    (r : Nat) (hr : r ≠ q) :
    ((collectReturns q p st).node r).return_nodes = (st.node r).return_nodes := by
  induction p generalizing st with
  | nil => rfl
  | cons n rest ih =>
      rw [collectReturns_cons, ih]
      dsimp only
      split
      · rfl
      · rw [CFState.node_modifyNode_ne st q _ r hr]

theorem collectReturns_elim (q : Nat) (p : List Nat) (st : CFState) (x : Nat)
    (hx : x ∈ (((collectReturns q p st).node q).return_nodes).getD []) :
    x ∈ (((st.node q).return_nodes).getD []) ∨ x ∈ p := by
  induction p generalizing st with
  | nil => exact Or.inl hx
  | cons n rest ih =>
      rw [collectReturns_cons] at hx
      rcases ih _ hx with h | h
      · dsimp only at h
        split at h
        · exact Or.inl h
        · rw [CFState.node_modifyNode] at h
          split at h
          · simp only [Option.getD_some] at h
            rcases List.mem_append.mp h with h2 | h2
            · exact Or.inl h2
            · simp only [List.mem_singleton] at h2
              exact Or.inr (h2 ▸ List.mem_cons_self n rest)
          · exact Or.inl h
      · exact Or.inr (List.mem_cons_of_mem n h)

theorem collectReturns_InvJ (q : Nat) (p : List Nat) (st : CFState)
    (h : InvJ st) : InvJ (collectReturns q p st) := by
  induction p generalizing st with
  | nil => exact h
  | cons n rest ih =>
      rw [collectReturns_cons]
      refine ih _ ?_
      dsimp only
      split
      · exact h
      · refine InvJ_modifyNode st q _ (fun nd => ?_) (fun nd x hx => hx) h
        rfl

theorem addExitParents_length (q : Nat) (rn : List Nat) (st : CFState) :
    (addExitParents q rn st).cache.length = st.cache.length := by
  induction rn generalizing st with
  | nil => rfl
  | cons n rest ih =>
      show (addExitParents q rest _).cache.length = _
      rw [ih, CFState.length_modifyNode]

theorem addExitParents_functions (q : Nat) (rn : List Nat) (st : CFState) :
    (addExitParents q rn st).functions = st.functions := by
  induction rn generalizing st with
  | nil => rfl
  | cons n rest ih =>
      show (addExitParents q rest _).functions = _
      rw [ih, CFState.functions_modifyNode]

theorem addExitParents_parents_ne (q : Nat) (rn : List Nat) (st : CFState)
    (r : Nat) (hr : r ≠ q) :
    ((addExitParents q rn st).node r).parents = (st.node r).parents := by
  induction rn generalizing st with
  | nil => rfl
  | cons n rest ih =>
      show ((addExitParents q rest _).node r).parents = _
      rw [ih, CFState.node_modifyNode_ne st q _ r hr]

theorem addExitParents_children (q : Nat) (rn : List Nat) (st : CFState) (r : Nat) :
    ((addExitParents q rn st).node r).children = (st.node r).children := by
  induction rn generalizing st with
  | nil => rfl
  | cons n rest ih =>
      show ((addExitParents q rest _).node r).children = _
      rw [ih, CFState.node_modifyNode_proj CFNode.children st q _
        (fun nd => CFNode.addParent_children nd _) r]

theorem addExitParents_return_nodes (q : Nat) (rn : List Nat) (st : CFState) (r : Nat) :
    ((addExitParents q rn st).node r).return_nodes = (st.node r).return_nodes := by
  induction rn generalizing st with
  | nil => rfl
  | cons n rest ih =>
      show ((addExitParents q rest _).node r).return_nodes = _
      rw [ih, CFState.node_modifyNode_proj CFNode.return_nodes st q _
        (fun nd => CFNode.addParent_return_nodes nd _) r]

theorem addExitParents_parents_elim (q : Nat) (rn : List Nat) (st : CFState) (y : Nat)
    (hy : y ∈ ((addExitParents q rn st).node q).parents) :
    y ∈ (st.node q).parents ∨ y ∈ rn := by
  unfold addExitParents at hy
  exact addParentsToFold_parents_elim rn q st y hy

theorem addExitParents_InvJ (q : Nat) (rn : List Nat) (st : CFState)
    (h : InvJ st) : InvJ (addExitParents q rn st) := by
  induction rn generalizing st with
  | nil => exact h
  | cons n rest ih =>
      show InvJ (addExitParents q rest _)
      refine ih _ ?_
      exact InvJ_modifyNode st q _ (fun nd => CFNode.addParent_children nd _)
        (fun nd x hx => CFNode.mem_addParent_mono nd _ x hx) h

/-!
The statement-walk frame: walking a statement can only append nodes, never
rewires the parents or `return_nodes` of previously registered nodes, returns
a frontier drawn from the incoming frontier and freshly created nodes, and
preserves the child/parent containment invariant.
-/

def StFrame (st st' : CFState) : Prop :=
  st.cache.length ≤ st'.cache.length ∧
  (∀ r, r < st.cache.length → (st'.node r).parents = (st.node r).parents) ∧
  (∀ r, r < st.cache.length → (st'.node r).return_nodes = (st.node r).return_nodes) ∧
  (InvJ st → InvJ st')

theorem stFrame_refl (st : CFState) : StFrame st st :=
  ⟨Nat.le_refl _, fun _ _ => rfl, fun _ _ => rfl, fun h => h⟩

theorem stFrame_trans (st1 st2 st3 : CFState) (h1 : StFrame st1 st2)
    (h2 : StFrame st2 st3) : StFrame st1 st3 := by
  obtain ⟨a1, a2, a3, a4⟩ := h1
  obtain ⟨b1, b2, b3, b4⟩ := h2
  refine ⟨a1.trans b1, ?_, ?_, fun h => b4 (a4 h)⟩
  · intro r hr
    rw [b2 r (Nat.lt_of_lt_of_le hr a1), a2 r hr]
  · intro r hr
    rw [b3 r (Nat.lt_of_lt_of_le hr a1), a3 r hr]

theorem exprFrame_stFrame (p : List Nat) (st st' : CFState) (p' : List Nat)
    (h : ExprFrame p st st' p') : StFrame st st' := by
  obtain ⟨e1, e2, e3, e4, e5, e6⟩ := h
  exact ⟨Nat.le_of_eq e2.symm, fun r _ => e4 r, fun r _ => e6 r,
    fun hJ => InvJ_congr st st' e2 e4 e5 hJ⟩

theorem newNode_stFrame (ps : List Nat) (src : String) (st : CFState) :
    StFrame st (newNode ps src st).1 := by
  refine ⟨by rw [newNode_length]; exact Nat.le_succ _, ?_, ?_, InvJ_newNode ps src st⟩
  · intro r hr
    exact newNode_parents_ne ps src st r (Nat.ne_of_lt hr)
  · intro r hr
    exact newNode_return_nodes_ne ps src st r (Nat.ne_of_lt hr)


/-!
Facts about the `on_functiondef` prologue and epilogue.
-/

theorem functionSentinels_enter (fname : String) (args : List String) (st : CFState) :
    (functionSentinels fname args st).2.1 = st.cache.length := rfl

theorem functionSentinels_exit (fname : String) (args : List String) (st : CFState) :
    (functionSentinels fname args st).2.2 = st.cache.length + 1 := by
  unfold functionSentinels
  dsimp only
  rw [newNode_rid, CFState.length_modifyNode, newNode_length]

theorem functionSentinels_length (fname : String) (args : List String) (st : CFState) :
    (functionSentinels fname args st).1.cache.length = st.cache.length + 2 := by
  unfold functionSentinels
  dsimp only
  rw [CFState.length_modifyNode, newNode_length, CFState.length_modifyNode, newNode_length]

theorem functionSentinels_functions (fname : String) (args : List String) (st : CFState) :
    (functionSentinels fname args st).1.functions = st.functions := by
  unfold functionSentinels
  dsimp only
  rw [CFState.functions_modifyNode, newNode_functions, CFState.functions_modifyNode,
    newNode_functions]

theorem functionSentinels_stFrame (fname : String) (args : List String) (st : CFState) :
    StFrame st (functionSentinels fname args st).1 := by
  unfold functionSentinels
  dsimp only
  refine ⟨?_, ?_, ?_, ?_⟩
  · rw [CFState.length_modifyNode, newNode_length, CFState.length_modifyNode,
      newNode_length]
    omega
  · intro r hr
    rw [CFState.node_modifyNode_proj CFNode.parents _ _
      (fun n => { n with fn_exit_node := true }) (fun n => rfl) r]
    rw [newNode_parents_ne _ _ _ r
      (by rw [CFState.length_modifyNode, newNode_length]; omega)]
    rw [CFState.node_modifyNode_proj CFNode.parents _ _
      (fun n => { n with calleelink := true, return_nodes := some [] }) (fun n => rfl) r]
    rw [newNode_parents_ne _ _ _ r (by omega)]
  · intro r hr
    rw [CFState.node_modifyNode_ne _ _ _ r
      (by rw [newNode_rid, CFState.length_modifyNode, newNode_length]; omega)]
    rw [newNode_return_nodes_ne _ _ _ r
      (by rw [CFState.length_modifyNode, newNode_length]; omega)]
    rw [CFState.node_modifyNode_ne _ _ _ r (by rw [newNode_rid]; omega)]
    rw [newNode_return_nodes_ne _ _ _ r (by omega)]
  · intro hJ
    refine InvJ_modifyNode _ _ _ (fun n => ?_) (fun n x hx => hx) ?_
    · rfl
    · refine InvJ_newNode _ _ _ ?_
      refine InvJ_modifyNode _ _ _ (fun n => ?_) (fun n x hx => hx) ?_
      · rfl
      · exact InvJ_newNode _ _ _ hJ

theorem functionSentinels_enter_parents (fname : String) (args : List String)
    (st : CFState) :
    ((functionSentinels fname args st).1.node st.cache.length).parents = [] := by
  unfold functionSentinels
  dsimp only
  rw [CFState.node_modifyNode_proj CFNode.parents _ _
    (fun n => { n with fn_exit_node := true }) (fun n => rfl) _]
  rw [newNode_parents_ne _ _ _ _
    (by rw [CFState.length_modifyNode, newNode_length]; omega)]
  rw [CFState.node_modifyNode_proj CFNode.parents _ _
    (fun n => { n with calleelink := true, return_nodes := some [] }) (fun n => rfl) _]
  exact newNode_parents_new [] (renderEnter fname args) st

theorem functionSentinels_enter_return (fname : String) (args : List String)
    (st : CFState) :
    ((functionSentinels fname args st).1.node st.cache.length).return_nodes
      = some [] := by
  unfold functionSentinels
  dsimp only
  rw [CFState.node_modifyNode_ne _ _ _ _
    (by rw [newNode_rid, CFState.length_modifyNode, newNode_length]; omega)]
  rw [newNode_return_nodes_ne _ _ _ _
    (by rw [CFState.length_modifyNode, newNode_length]; omega)]
  rw [CFState.node_modifyNode]
  rw [if_pos ⟨by rw [newNode_rid, newNode_length]; omega, by rw [newNode_rid]⟩]

theorem functionSentinels_exit_parents (fname : String) (args : List String)
    (st : CFState) :
    ((functionSentinels fname args st).1.node (st.cache.length + 1)).parents = [] := by
  unfold functionSentinels
  dsimp only
  rw [CFState.node_modifyNode_proj CFNode.parents _ _
    (fun n => { n with fn_exit_node := true }) (fun n => rfl) _]
  have hlen : st.cache.length + 1
      = ((newNode [] (renderEnter fname args) st).1.modifyNode
          (newNode [] (renderEnter fname args) st).2
          (fun n => { n with calleelink := true, return_nodes := some [] })).cache.length := by
    rw [CFState.length_modifyNode, newNode_length]
  rw [hlen]
  exact newNode_parents_new [] (renderExit fname args) _

theorem finishFunctionDef_length (fname : String) (e x : Nat) (stB : CFState)
    (p : List Nat) :
    (finishFunctionDef fname e x stB p).cache.length = stB.cache.length := by
  show (addExitParents _ _ _).cache.length = _
  rw [addExitParents_length, collectReturns_length]

theorem finishFunctionDef_functions (fname : String) (e x : Nat) (stB : CFState)
    (p : List Nat) :
    (finishFunctionDef fname e x stB p).functions = (fname, e, x) :: stB.functions := by
  show (fname, e, x) :: (addExitParents _ _ _).functions = _
  rw [addExitParents_functions, collectReturns_functions]

theorem finishFunctionDef_parents_ne (fname : String) (e x : Nat) (stB : CFState)
    (p : List Nat) (r : Nat) (hr : r ≠ x) :
    ((finishFunctionDef fname e x stB p).node r).parents = (stB.node r).parents := by
  show ((addExitParents _ _ _).node r).parents = _
  rw [addExitParents_parents_ne _ _ _ r hr, collectReturns_parents]

theorem finishFunctionDef_return_ne (fname : String) (e x : Nat) (stB : CFState)
    (p : List Nat) (r : Nat) (hr : r ≠ e) :
    ((finishFunctionDef fname e x stB p).node r).return_nodes
      = (stB.node r).return_nodes := by
  show ((addExitParents _ _ _).node r).return_nodes = _
  rw [addExitParents_return_nodes, collectReturns_return_nodes_ne _ _ _ r hr]

theorem finishFunctionDef_InvJ (fname : String) (e x : Nat) (stB : CFState)
    (p : List Nat) (h : InvJ stB) : InvJ (finishFunctionDef fname e x stB p) := by
  show InvJ ({ addExitParents _ _ _ with functions := _ } : CFState)
  exact addExitParents_InvJ _ _ _ (collectReturns_InvJ _ _ _ h)

theorem finishFunctionDef_exit_parents_elim (fname : String) (e x : Nat)
    (stB : CFState) (p : List Nat) (y : Nat)
    (hy : y ∈ ((finishFunctionDef fname e x stB p).node x).parents) :
    y ∈ (stB.node x).parents ∨ y ∈ (((stB.node e).return_nodes).getD []) ∨ y ∈ p := by
  have hy2 : y ∈ ((addExitParents x
      (((collectReturns e p stB).node e).return_nodes.getD [])
      (collectReturns e p stB)).node x).parents := hy
  rcases addExitParents_parents_elim _ _ _ _ hy2 with h | h
  · rw [collectReturns_parents] at h
    exact Or.inl h
  · rcases collectReturns_elim e p stB y h with h2 | h2
    · exact Or.inr (Or.inl h2)
    · exact Or.inr (Or.inr h2)

def StmtFrame (p : List Nat) (st st' : CFState) (p' : List Nat) : Prop :=
  StFrame st st' ∧ (∀ x ∈ p', x ∈ p ∨ st.cache.length ≤ x)

mutual
theorem walkStmt_frame (s : PyStmt) (p : List Nat) (st st' : CFState) (p' : List Nat)
    (h : walkStmt s p st = .ok (st', p')) : StmtFrame p st st' p' := by
  cases s with
  | assign targets value =>
      simp only [walkStmt] at h
      split at h
      · cases h
      · have hfr := walkExpr_frame value _ _ _ _ h
        obtain ⟨e1, e2, e3, e4, e5, e6⟩ := hfr
        constructor
        · exact stFrame_trans _ _ _ (newNode_stFrame _ _ st)
            (exprFrame_stFrame _ _ _ _ ⟨e1, e2, e3, e4, e5, e6⟩)
        · intro y hy
          rw [e1] at hy
          simp only [newNode_rid, List.mem_singleton] at hy
          exact Or.inr (Nat.le_of_eq hy.symm)
  | pass =>
      simp only [walkStmt] at h
      injection h with h
      injection h with h1 h2
      subst h1; subst h2
      constructor
      · exact newNode_stFrame _ _ st
      · intro y hy
        simp only [newNode_rid, List.mem_singleton] at hy
        exact Or.inr (Nat.le_of_eq hy.symm)
  | exprStmt value =>
      simp only [walkStmt] at h
      have hfr := walkExpr_frame value _ _ _ _ h
      obtain ⟨e1, e2, e3, e4, e5, e6⟩ := hfr
      constructor
      · exact stFrame_trans _ _ _ (newNode_stFrame _ _ st)
          (exprFrame_stFrame _ _ _ _ ⟨e1, e2, e3, e4, e5, e6⟩)
      · intro y hy
        rw [e1] at hy
        simp only [newNode_rid, List.mem_singleton] at hy
        exact Or.inr (Nat.le_of_eq hy.symm)
  | functiondef fname args body =>
      simp only [walkStmt] at h
      rcases hw : walkStmts body [(functionSentinels fname args st).2.1]
          (functionSentinels fname args st).1 with err | ⟨stB, pB⟩ <;> rw [hw] at h
      · cases h
      · injection h with h
        injection h with h1 h2
        subst h1; subst h2
        obtain ⟨⟨b1, b2, b3, b4⟩, _⟩ := walkStmts_frame body _ _ _ _ hw
        have hsen := functionSentinels_stFrame fname args st
        obtain ⟨s1, s2, s3, s4⟩ := hsen
        have hxeq := functionSentinels_exit fname args st
        have hlenX := functionSentinels_length fname args st
        refine ⟨⟨?_, ?_, ?_, ?_⟩, fun y hy => Or.inl hy⟩
        · rw [finishFunctionDef_length]
          exact Nat.le_trans s1 b1
        · intro r hr
          rw [finishFunctionDef_parents_ne fname _ _ stB pB r (by omega),
            b2 r (Nat.lt_of_lt_of_le hr s1), s2 r hr]
        · intro r hr
          rw [finishFunctionDef_return_ne fname _ _ stB pB r
              (by rw [functionSentinels_enter]; omega),
            b3 r (Nat.lt_of_lt_of_le hr s1), s3 r hr]
        · intro hJ
          exact finishFunctionDef_InvJ _ _ _ _ _ (b4 (s4 hJ))

theorem walkStmts_frame (l : List PyStmt) (p : List Nat) (st st' : CFState)
    (p' : List Nat) (h : walkStmts l p st = .ok (st', p')) : StmtFrame p st st' p' := by
  cases l with
  | nil =>
      rw [walkStmts] at h
      injection h with h
      injection h with h1 h2
      subst h1; subst h2
      exact ⟨stFrame_refl st, fun x hx => Or.inl hx⟩
  | cons s rest =>
      rw [walkStmts] at h
      rcases hw : walkStmt s p st with err | ⟨st1, p1⟩ <;> rw [hw] at h
      · cases h
      · obtain ⟨f1, f2⟩ := walkStmt_frame s p st st1 p1 hw
        obtain ⟨g1, g2⟩ := walkStmts_frame rest p1 st1 st' p' h
        refine ⟨stFrame_trans _ _ _ f1 g1, ?_⟩
        intro x hx
        rcases g2 x hx with h2 | h2
        · rcases f2 x h2 with h3 | h3
          · exact Or.inl h3
          · exact Or.inr h3
        · exact Or.inr (Nat.le_trans f1.1 h2)
end

/-!
Facts about `ControlFlow.update_children`: it never touches parents, lengths
or the functions table; children only grow; after the pass every parent edge
of a registered node is mirrored by a child edge; and `InvJ` is preserved.
-/

theorem InvJ_addChildFold (st : CFState) (c : Nat) (ps : List Nat)
    (hps : ∀ p ∈ ps, p ∈ (st.node c).parents) (hc : c < st.cache.length)
    (h : InvJ st) :
    InvJ (ps.foldl (fun s p => s.modifyNode p (fun n => n.addChild c)) st) := by
  induction ps generalizing st with
  | nil => exact h
  | cons p0 rest ih =>
      rw [List.foldl_cons]
      refine ih _ ?_ ?_ ?_
      · intro p hp
        rw [CFState.node_modifyNode_proj CFNode.parents st p0 _
          (fun n => CFNode.addChild_parents n _) c]
        exact hps p (List.mem_cons_of_mem p0 hp)
      · rw [CFState.length_modifyNode]; exact hc
      · -- one add_child step preserves the invariant
        intro q hq c' hc'
        rw [CFState.length_modifyNode] at hq
        have hpar : ∀ r, (((st.modifyNode p0 (fun n => n.addChild c)).node r)).parents
            = (st.node r).parents :=
          fun r => CFState.node_modifyNode_proj CFNode.parents st p0 _
            (fun n => CFNode.addChild_parents n _) r
        rw [CFState.node_modifyNode] at hc'
        split at hc'
        · next hcase =>
            rcases CFNode.mem_addChild_elim _ _ _ hc' with h2 | h2
            · rcases h q hq c' (hcase.2 ▸ h2) with ⟨h3, h4⟩
              exact ⟨by rw [CFState.length_modifyNode]; exact h3, by rw [hpar]; exact h4⟩
            · subst h2
              refine ⟨by rw [CFState.length_modifyNode]; exact hc, ?_⟩
              rw [hpar]
              exact hcase.2 ▸ hps p0 (List.mem_cons_self p0 rest)
        · rcases h q hq c' hc' with ⟨h3, h4⟩
          exact ⟨by rw [CFState.length_modifyNode]; exact h3, by rw [hpar]; exact h4⟩

theorem updateChildrenFrom_length (L : List Nat) (st : CFState) :
    (updateChildrenFrom L st).cache.length = st.cache.length := by
  induction L generalizing st with
  | nil => rfl
  | cons nid rest ih =>
      show (updateChildrenFrom rest _).cache.length = _
      rw [ih, modifyEachFold_length]

theorem updateChildrenFrom_functions (L : List Nat) (st : CFState) :
    (updateChildrenFrom L st).functions = st.functions := by
  induction L generalizing st with
  | nil => rfl
  | cons nid rest ih =>
      show (updateChildrenFrom rest _).functions = _
      rw [ih, modifyEachFold_functions]

theorem updateChildrenFrom_parents (L : List Nat) (st : CFState) (r : Nat) :
    ((updateChildrenFrom L st).node r).parents = (st.node r).parents := by
  induction L generalizing st with
  | nil => rfl
  | cons nid rest ih =>
      show ((updateChildrenFrom rest _).node r).parents = _
      rw [ih, modifyEachFold_proj CFNode.parents _ _
        (fun n => CFNode.addChild_parents n _) _ r]

theorem updateChildrenFrom_calls (L : List Nat) (st : CFState) (r : Nat) :
    ((updateChildrenFrom L st).node r).calls = (st.node r).calls := by
  induction L generalizing st with
  | nil => rfl
  | cons nid rest ih =>
      show ((updateChildrenFrom rest _).node r).calls = _
      rw [ih, modifyEachFold_proj CFNode.calls _ _
        (fun n => CFNode.addChild_calls n _) _ r]

theorem updateChildrenFrom_calllink (L : List Nat) (st : CFState) (r : Nat) :
    ((updateChildrenFrom L st).node r).calllink = (st.node r).calllink := by
  induction L generalizing st with
  | nil => rfl
  | cons nid rest ih =>
      show ((updateChildrenFrom rest _).node r).calllink = _
      rw [ih, modifyEachFold_proj CFNode.calllink _ _
        (fun n => CFNode.addChild_calllink n _) _ r]

theorem updateChildrenFrom_children_mono (L : List Nat) (st : CFState) (r x : Nat)
    (hx : x ∈ (st.node r).children) :
    x ∈ ((updateChildrenFrom L st).node r).children := by
  induction L generalizing st with
  | nil => exact hx
  | cons nid rest ih =>
      show x ∈ ((updateChildrenFrom rest _).node r).children
      exact ih _ (addChildFold_children_mono _ _ _ _ _ hx)

theorem updateChildrenFrom_completes (L : List Nat) (st : CFState) (c : Nat)
    (hcL : c ∈ L) (hc : c < st.cache.length) (p : Nat)
    (hp : p ∈ (st.node c).parents) (hplen : p < st.cache.length) :
    c ∈ ((updateChildrenFrom L st).node p).children := by
  induction L generalizing st with
  | nil => cases hcL
  | cons nid rest ih =>
      show c ∈ ((updateChildrenFrom rest _).node p).children
      rcases List.mem_cons.mp hcL with h | h
      · subst h
        refine updateChildrenFrom_children_mono rest _ p c ?_
        exact addChildFold_children_self _ _ _ _ hp hplen
      · refine ih _ h (by rw [modifyEachFold_length]; exact hc) ?_
          (by rw [modifyEachFold_length]; exact hplen)
        rw [modifyEachFold_proj CFNode.parents _ _
          (fun n => CFNode.addChild_parents n _) _ c]
        exact hp

theorem updateChildrenFrom_InvJ (L : List Nat) (st : CFState)
    (hL : ∀ n ∈ L, n < st.cache.length) (h : InvJ st) :
    InvJ (updateChildrenFrom L st) := by
  induction L generalizing st with
  | nil => exact h
  | cons nid rest ih =>
      show InvJ (updateChildrenFrom rest _)
      refine ih _ ?_ ?_
      · intro n hn
        rw [modifyEachFold_length]
        exact hL n (List.mem_cons_of_mem nid hn)
      · exact InvJ_addChildFold st nid _ (fun p hp => hp)
          (hL nid (List.mem_cons_self nid rest)) h

theorem update_children_length (st : CFState) :
    (ControlFlow.update_children st).cache.length = st.cache.length :=
  updateChildrenFrom_length _ st

theorem update_children_functions (st : CFState) :
    (ControlFlow.update_children st).functions = st.functions :=
  updateChildrenFrom_functions _ st

theorem update_children_parents (st : CFState) (r : Nat) :
    ((ControlFlow.update_children st).node r).parents = (st.node r).parents :=
  updateChildrenFrom_parents _ st r

theorem update_children_calls (st : CFState) (r : Nat) :
    ((ControlFlow.update_children st).node r).calls = (st.node r).calls :=
  updateChildrenFrom_calls _ st r

theorem update_children_calllink (st : CFState) (r : Nat) :
    ((ControlFlow.update_children st).node r).calllink = (st.node r).calllink :=
  updateChildrenFrom_calllink _ st r

theorem update_children_completes (st : CFState) (c : Nat) (hc : c < st.cache.length)
    (p : Nat) (hp : p ∈ (st.node c).parents) (hplen : p < st.cache.length) :
    c ∈ ((ControlFlow.update_children st).node p).children :=
  updateChildrenFrom_completes _ st c (List.mem_range.mpr hc) hc p hp hplen

theorem update_children_InvJ (st : CFState) (h : InvJ st) :
    InvJ (ControlFlow.update_children st) :=
  updateChildrenFrom_InvJ _ st (fun n hn => List.mem_range.mp hn) h

/-!
Facts about `link_functions`: linking never changes cache length, the
functions table, or any `children` list; parents only grow; `InvJ` is
preserved; and with an empty functions table the pass is the identity.
-/

theorem modifyNode_addParent_mono (st : CFState) (q y r x : Nat)
    (hx : x ∈ (st.node r).parents) :
    x ∈ ((st.modifyNode q (fun n => n.addParent y)).node r).parents := by
  rw [CFState.node_modifyNode]
  split
  · next h => exact CFNode.mem_addParent_mono _ _ _ (h.2 ▸ hx)
  · exact hx

theorem addParentEachFold_InvJ (l : List Nat) (x : Nat) (st : CFState)
    (h : InvJ st) :
    InvJ (l.foldl (fun s i => s.modifyNode i (fun n => n.addParent x)) st) := by
  induction l generalizing st with
  | nil => exact h
  | cons i rest ih =>
      rw [List.foldl_cons]
      refine ih _ ?_
      exact InvJ_modifyNode st i _ (fun n => CFNode.addParent_children n _)
        (fun n y hy => CFNode.mem_addParent_mono n _ y hy) h

/-- The conclusion of the link-pass frame lemmas. -/
def LinkFrame (st st' : CFState) : Prop :=
  st'.cache.length = st.cache.length ∧ st'.functions = st.functions ∧
  (∀ r, (st'.node r).children = (st.node r).children) ∧
  (∀ r x, x ∈ (st.node r).parents → x ∈ (st'.node r).parents) ∧
  (InvJ st → InvJ st')

theorem linkFrame_refl (st : CFState) : LinkFrame st st :=
  ⟨rfl, rfl, fun _ => rfl, fun _ _ hx => hx, fun h => h⟩

theorem linkFrame_trans (st1 st2 st3 : CFState) (h1 : LinkFrame st1 st2)
    (h2 : LinkFrame st2 st3) : LinkFrame st1 st3 := by
  obtain ⟨a1, a2, a3, a4, a5⟩ := h1
  obtain ⟨b1, b2, b3, b4, b5⟩ := h2
  exact ⟨b1.trans a1, b2.trans a2, fun r => (b3 r).trans (a3 r),
    fun r x hx => b4 r x (a4 r x hx), fun h => b5 (a5 h)⟩

theorem linkCall_frame (nid : Nat) (st : CFState) (c : Callee) (st' : CFState)
    (h : linkCall nid st c = .ok st') : LinkFrame st st' := by
  cases c with
  | opObj op =>
      rw [linkCall] at h
      injection h with h
      subst h
      exact linkFrame_refl st
  | name s =>
      rw [linkCall] at h
      rcases hlk : st.functions.lookup s with _ | ⟨e, x⟩ <;> rw [hlk] at h
      · injection h with h
        subst h
        exact linkFrame_refl st
      · dsimp only at h
        have fr1 : LinkFrame st (st.modifyNode e (fun n => n.addParent nid)) :=
          ⟨CFState.length_modifyNode _ _ _, CFState.functions_modifyNode _ _ _,
            fun r => CFState.node_modifyNode_proj CFNode.children _ _ _
              (fun n => CFNode.addParent_children n _) r,
            fun r y hy => modifyNode_addParent_mono st e nid r y hy,
            fun hJ => InvJ_modifyNode _ _ _ (fun n => CFNode.addParent_children n _)
              (fun n y hy => CFNode.mem_addParent_mono n _ y hy) hJ⟩
        rcases hch : ((st.modifyNode e (fun n => n.addParent nid)).node nid).children
          with _ | ⟨c0, cr⟩ <;> rw [hch] at h
        · injection h with h
          subst h
          exact fr1
        · dsimp only at h
          rcases hcl : ((st.modifyNode e (fun n => n.addParent nid)).node nid).calllink
            with _ | v <;> rw [hcl] at h
          · cases h
          · dsimp only at h
            split at h
            · injection h with h
              subst h
              have fr2 : LinkFrame (st.modifyNode e (fun n => n.addParent nid))
                  ((st.modifyNode e (fun n => n.addParent nid)).modifyNode nid
                    (fun n => { n with calllink := some (v + 1) })) := by
                refine ⟨CFState.length_modifyNode _ _ _, CFState.functions_modifyNode _ _ _,
                  fun r => CFState.node_modifyNode_proj CFNode.children _ nid
                    (fun n => { n with calllink := some (v + 1) })
                    (fun n => rfl) r, fun r y hy => ?_, fun hJ => ?_⟩
                · rw [CFState.node_modifyNode]
                  split
                  · next hcase => rw [hcase.2] at hy; exact hy
                  · exact hy
                · refine InvJ_modifyNode _ _ _ (fun n => ?_) (fun n y hy => hy) hJ
                  rfl
              have fr3 : LinkFrame
                  ((st.modifyNode e (fun n => n.addParent nid)).modifyNode nid
                    (fun n => { n with calllink := some (v + 1) }))
                  ((c0 :: cr).foldl (fun s2 i => s2.modifyNode i (fun n => n.addParent x))
                    ((st.modifyNode e (fun n => n.addParent nid)).modifyNode nid
                      (fun n => { n with calllink := some (v + 1) }))) :=
                ⟨modifyEachFold_length _ _ _, modifyEachFold_functions _ _ _,
                  fun r => modifyEachFold_proj CFNode.children (c0 :: cr)
                    (fun n => n.addParent x) (fun n => CFNode.addParent_children n x) _ r,
                  fun r y hy => addParentEachFold_parents_mono (c0 :: cr) x _ r y hy,
                  fun hJ => addParentEachFold_InvJ (c0 :: cr) x _ hJ⟩
              exact linkFrame_trans _ _ _ fr1 (linkFrame_trans _ _ _ fr2 fr3)
            · cases h

theorem linkCallsOf_frame (nid : Nat) (cs : List Callee) (st st' : CFState)
    (h : linkCallsOf nid cs st = .ok st') : LinkFrame st st' := by
  induction cs generalizing st with
  | nil =>
      rw [linkCallsOf] at h
      injection h with h
      subst h
      exact linkFrame_refl st
  | cons c rest ih =>
      rw [linkCallsOf] at h
      rcases hc : linkCall nid st c with err | st1 <;> rw [hc] at h
      · cases h
      · exact linkFrame_trans _ _ _ (linkCall_frame nid st c st1 hc) (ih _ h)

theorem linkNodesFrom_frame (L : List Nat) (st st' : CFState)
    (h : linkNodesFrom L st = .ok st') : LinkFrame st st' := by
  induction L generalizing st with
  | nil =>
      rw [linkNodesFrom] at h
      injection h with h
      subst h
      exact linkFrame_refl st
  | cons nid rest ih =>
      rw [linkNodesFrom] at h
      rcases hcalls : (st.node nid).calls with _ | ⟨c0, cr⟩ <;> rw [hcalls] at h
      · exact ih _ h
      · rcases hlc : linkCallsOf nid (c0 :: cr) st with err | st1 <;> rw [hlc] at h
        · cases h
        · exact linkFrame_trans _ _ _ (linkCallsOf_frame nid _ st st1 hlc) (ih _ h)

theorem link_functions_frame (st st' : CFState)
    (h : ControlFlow.link_functions st = .ok st') : LinkFrame st st' :=
  linkNodesFrom_frame _ st st' h

theorem linkCall_noFunctions (nid : Nat) (st : CFState) (c : Callee)
    (hf : st.functions = []) : linkCall nid st c = .ok st := by
  cases c with
  | opObj op => rw [linkCall]
  | name s => rw [linkCall, hf]; rfl

theorem linkCallsOf_noFunctions (nid : Nat) (cs : List Callee) (st : CFState)
    (hf : st.functions = []) : linkCallsOf nid cs st = .ok st := by
  induction cs with
  | nil => rw [linkCallsOf]
  | cons c rest ih =>
      rw [linkCallsOf, linkCall_noFunctions nid st c hf]
      dsimp only
      exact ih

theorem linkNodesFrom_noFunctions (L : List Nat) (st : CFState)
    (hf : st.functions = []) : linkNodesFrom L st = .ok st := by
  induction L with
  | nil => rw [linkNodesFrom]
  | cons nid rest ih =>
      rw [linkNodesFrom]
      rcases hcalls : (st.node nid).calls with _ | ⟨c0, cr⟩
      · exact ih
      · rw [linkCallsOf_noFunctions nid (c0 :: cr) st hf]
        dsimp only
        exact ih

theorem link_functions_noFunctions (st : CFState) (hf : st.functions = []) :
    ControlFlow.link_functions st = .ok st :=
  linkNodesFrom_noFunctions _ st hf

/-!
## Dominator analysis: invariants, monotonicity, termination

The fixpoint loop is analysed through the invariant `DomInv` (every pending
update can only shrink the stored set), which holds initially when every
listed predecessor is itself a key of the mapping, and is preserved by each
in-place update.  A pass that reports a change strictly decreases the total
size of the stored sets, which bounds the number of passes.
-/

theorem domWrite_self (d : Nat → Finset Nat) (n : Nat) (v : Finset Nat) :
    domWrite d n v n = v := by
  simp [domWrite]

theorem domWrite_ne (d : Nat → Finset Nat) (n m : Nat) (v : Finset Nat)
    (h : m ≠ n) : domWrite d n v m = d m := by
  simp [domWrite, h]

theorem domWrite_eq_self (d : Nat → Finset Nat) (n : Nat) :
    domWrite d n (d n) = d := by
  funext m
  by_cases h : m = n
  · subst h; exact domWrite_self d m (d m)
  · exact domWrite_ne d n m (d n) h

theorem interFold_subset (ds : List (Finset Nat)) (a : Finset Nat) :
    ds.foldl (fun x y => x ∩ y) a ⊆ a := by
  induction ds generalizing a with
  | nil => exact fun x hx => hx
  | cons b rest ih =>
      rw [List.foldl_cons]
      exact fun x hx => (Finset.inter_subset_left) (ih (a ∩ b) hx)

theorem interFold_mono (qs : List Nat) (d d' : Nat → Finset Nat)
    (a b : Finset Nat) (hab : a ⊆ b) (h : ∀ m, d m ⊆ d' m) :
    (qs.map d).foldl (fun x y => x ∩ y) a ⊆ (qs.map d').foldl (fun x y => x ∩ y) b := by
  induction qs generalizing a b with
  | nil => exact hab
  | cons q rest ih =>
      rw [List.map_cons, List.foldl_cons, List.map_cons, List.foldl_cons]
      exact ih _ _ (Finset.inter_subset_inter hab (h q))

theorem domUpdate_mono (g : DomGraph) (d d' : Nat → Finset Nat) (n : Nat)
    (h : ∀ m, d m ⊆ d' m) : domUpdate g d n ⊆ domUpdate g d' n := by
  unfold domUpdate
  dsimp only
  rcases hp : g.preds n with _ | ⟨q, qs⟩
  · exact fun x hx => hx
  · rw [List.map_cons, List.map_cons]
    exact Finset.union_subset_union (fun x hx => hx) (interFold_mono qs d d' _ _ (h q) h)

theorem domUpdate_self_mem (g : DomGraph) (d : Nat → Finset Nat) (n : Nat) :
    n ∈ domUpdate g d n := by
  unfold domUpdate
  dsimp only
  exact Finset.mem_union_left _ (Finset.mem_singleton_self n)

/-- The pending update at every non-start key can only shrink the stored set. -/
def DomInv (g : DomGraph) (start : Nat) (d : Nat → Finset Nat) : Prop :=
  ∀ n ∈ g.nodes, n ≠ start → domUpdate g d n ⊆ d n

theorem domInit_inv (g : DomGraph) (start : Nat)
    (h2 : ∀ n ∈ g.nodes, ∀ q ∈ g.preds n, q ∈ g.nodes) :
    DomInv g start (domInit g start) := by
  intro n hn hns
  unfold domUpdate
  dsimp only
  have hgoal : domInit g start n = g.nodes.toFinset := by
    unfold domInit; rw [if_neg hns]
  rw [hgoal]
  rcases hp : g.preds n with _ | ⟨q, qs⟩
  · refine Finset.union_subset ?_ ?_
    · simp [List.mem_toFinset.mpr hn]
    · exact Finset.empty_subset _
  · refine Finset.union_subset ?_ ?_
    · simp [List.mem_toFinset.mpr hn]
    · rw [List.map_cons]
      refine Finset.Subset.trans (interFold_subset _ _) ?_
      have hq : q ∈ g.nodes := h2 n hn q (by rw [hp]; exact List.mem_cons_self q qs)
      unfold domInit
      split
      · next heq =>
          intro y hy
          rw [Finset.mem_singleton] at hy
          subst hy
          exact List.mem_toFinset.mpr (heq ▸ hq)
      · exact fun y hy => hy

theorem domInv_write (g : DomGraph) (start : Nat) (d : Nat → Finset Nat) (n : Nat)
    (h : DomInv g start d) (hn : n ∈ g.nodes) (hns : n ≠ start) :
    DomInv g start (domWrite d n (domUpdate g d n)) ∧
      (∀ m, domWrite d n (domUpdate g d n) m ⊆ d m) := by
  have hle : ∀ m, domWrite d n (domUpdate g d n) m ⊆ d m := by
    intro m
    by_cases hm : m = n
    · subst hm
      rw [domWrite_self]
      exact h m hn hns
    · rw [domWrite_ne _ _ _ _ hm]
  refine ⟨?_, hle⟩
  intro m hm hms
  have hstep : domUpdate g (domWrite d n (domUpdate g d n)) m ⊆ domUpdate g d m :=
    domUpdate_mono g _ _ m hle
  by_cases hmn : m = n
  · subst hmn
    rw [domWrite_self]
    exact hstep
  · rw [domWrite_ne _ _ _ _ hmn]
    exact Finset.Subset.trans hstep (h m hm hms)

/-- The body of the `for n in rem_nodes` loop, as a standalone step. -/
def domStep (g : DomGraph) (acc : (Nat → Finset Nat) × Bool) (n : Nat) :
    (Nat → Finset Nat) × Bool :=
  (domWrite acc.1 n (domUpdate g acc.1 n),
    acc.2 || decide (acc.1 n ≠ domUpdate g acc.1 n))

theorem domPass_eq (g : DomGraph) (start : Nat) (dom : Nat → Finset Nat) :
    domPass g start dom
      = (g.nodes.filter (fun n => n ≠ start)).foldl (domStep g) (dom, false) := rfl

theorem domStepFold_inv (g : DomGraph) (start : Nat) (l : List Nat)
    (hl : ∀ n ∈ l, n ∈ g.nodes ∧ n ≠ start) (d : Nat → Finset Nat) (c0 : Bool)
    (h : DomInv g start d) :
    DomInv g start (l.foldl (domStep g) (d, c0)).1 ∧
      (∀ m, (l.foldl (domStep g) (d, c0)).1 m ⊆ d m) := by
  induction l generalizing d c0 with
  | nil => exact ⟨h, fun m x hx => hx⟩
  | cons n rest ih =>
      obtain ⟨hn1, hn2⟩ := hl n (List.mem_cons_self n rest)
      obtain ⟨hinv1, hle1⟩ := domInv_write g start d n h hn1 hn2
      rw [List.foldl_cons]
      obtain ⟨q1, q2⟩ := ih (fun m hm => hl m (List.mem_cons_of_mem n hm)) _ _ hinv1
      exact ⟨q1, fun m => Finset.Subset.trans (q2 m) (hle1 m)⟩

theorem domStepFold_flag_false (g : DomGraph) (l : List Nat)
    (d : Nat → Finset Nat) (c0 : Bool)
    (h : (l.foldl (domStep g) (d, c0)).2 = false) :
    c0 = false ∧ (l.foldl (domStep g) (d, c0)).1 = d := by
  induction l generalizing d c0 with
  | nil => exact ⟨h, rfl⟩
  | cons n rest ih =>
      rw [List.foldl_cons,
        show domStep g (d, c0) n
          = (domWrite d n (domUpdate g d n),
             c0 || decide (d n ≠ domUpdate g d n)) from rfl] at h
      obtain ⟨h1, h2⟩ := ih _ _ h
      rcases Bool.or_eq_false_iff.mp h1 with ⟨hc0, hdec⟩
      have hmm : d n = domUpdate g d n := by
        have := of_decide_eq_false hdec
        exact not_not.mp this
      refine ⟨hc0, ?_⟩
      rw [List.foldl_cons,
        show domStep g (d, c0) n
          = (domWrite d n (domUpdate g d n),
             c0 || decide (d n ≠ domUpdate g d n)) from rfl,
        h2, ← hmm, domWrite_eq_self]

theorem domStepFold_mem (g : DomGraph) (l : List Nat) (d : Nat → Finset Nat)
    (c0 : Bool) (h : ∀ n ∈ g.nodes, n ∈ d n) :
    ∀ n ∈ g.nodes, n ∈ (l.foldl (domStep g) (d, c0)).1 n := by
  induction l generalizing d c0 with
  | nil => exact h
  | cons m rest ih =>
      rw [List.foldl_cons]
      refine ih _ _ ?_
      intro n hn
      show n ∈ domWrite d m (domUpdate g d m) n
      by_cases hnm : n = m
      · subst hnm
        rw [domWrite_self]
        exact domUpdate_self_mem g d n
      · rw [domWrite_ne _ _ _ _ hnm]
        exact h n hn

/-- The total size of the stored dominator sets over the iterated keys. -/
def domMeasure (g : DomGraph) (start : Nat) (d : Nat → Finset Nat) : Nat :=
  ((g.nodes.filter (fun n => n ≠ start)).map (fun n => (d n).card)).sum

theorem domMeasure_mono (g : DomGraph) (start : Nat) (d d' : Nat → Finset Nat)
    (h : ∀ m, d m ⊆ d' m) : domMeasure g start d ≤ domMeasure g start d' :=
  List.sum_le_sum (fun i _ => Finset.card_le_card (h i))

theorem map_sum_lt (L : List Nat) (f f' : Nat → Nat) (x : Nat) (hx : x ∈ L)
    (hlt : f x < f' x) (hle : ∀ m ∈ L, f m ≤ f' m) :
    (L.map f).sum < (L.map f').sum := by
  induction L with
  | nil => cases hx
  | cons a rest ih =>
      rw [List.map_cons, List.map_cons, List.sum_cons, List.sum_cons]
      rcases List.mem_cons.mp hx with h | h
      · subst h
        refine Nat.add_lt_add_of_lt_of_le hlt ?_
        exact List.sum_le_sum (fun i hi => hle i (List.mem_cons_of_mem x hi))
      · refine Nat.add_lt_add_of_le_of_lt (hle a (List.mem_cons_self a rest)) ?_
        exact ih h (fun m hm => hle m (List.mem_cons_of_mem a hm))

theorem domMeasure_strict (g : DomGraph) (start : Nat) (d d' : Nat → Finset Nat)
    (hle : ∀ m, d m ⊆ d' m) (x : Nat)
    (hx : x ∈ g.nodes.filter (fun n => n ≠ start)) (hne : d x ≠ d' x) :
    domMeasure g start d < domMeasure g start d' := by
  refine map_sum_lt _ _ _ x hx ?_ (fun m _ => Finset.card_le_card (hle m))
  exact Finset.card_lt_card (Finset.ssubset_iff_subset_ne.mpr ⟨hle x, hne⟩)

theorem domStepFold_measure (g : DomGraph) (start : Nat) (l : List Nat)
    (hl : ∀ n ∈ l, n ∈ g.nodes.filter (fun m => m ≠ start))
    (d : Nat → Finset Nat) (c0 : Bool) (d0 : Nat → Finset Nat)
    (hinv : DomInv g start d) (hle : ∀ m, d m ⊆ d0 m)
    (hflag : c0 = true → domMeasure g start d < domMeasure g start d0)
    (h : (l.foldl (domStep g) (d, c0)).2 = true) :
    domMeasure g start (l.foldl (domStep g) (d, c0)).1 < domMeasure g start d0 := by
  induction l generalizing d c0 with
  | nil => exact Nat.lt_of_le_of_lt (domMeasure_mono g start _ _ (fun m x hx => hx)) (hflag h)
  | cons n rest ih =>
      have hnf := hl n (List.mem_cons_self n rest)
      have hn1 : n ∈ g.nodes := (List.mem_filter.mp hnf).1
      have hn2 : n ≠ start := of_decide_eq_true (List.mem_filter.mp hnf).2
      obtain ⟨hinv1, hle1⟩ := domInv_write g start d n hinv hn1 hn2
      rw [List.foldl_cons] at h ⊢
      refine ih (fun m hm => hl m (List.mem_cons_of_mem n hm)) _ _ hinv1
        (fun m => Finset.Subset.trans (hle1 m) (hle m)) ?_ h
      intro hc1
      rcases Bool.or_eq_true_iff.mp hc1 with hc0 | hdec
      · exact Nat.lt_of_le_of_lt (domMeasure_mono g start _ _ hle1) (hflag hc0)
      · have hne2 : d n ≠ domUpdate g d n := of_decide_eq_true hdec
        have hwne : domWrite d n (domUpdate g d n) n ≠ d n := by
          rw [domWrite_self]
          exact fun hh => hne2 hh.symm
        refine Nat.lt_of_lt_of_le ?_ (domMeasure_mono g start _ _ hle)
        exact domMeasure_strict g start _ _ hle1 n hnf hwne

/-- The pass-iteration of the fixpoint loop, starting from the initial map. -/
def passIter (g : DomGraph) (start : Nat) (k : Nat) : Nat → Finset Nat :=
  (fun x => (domPass g start x).1)^[k] (domInit g start)

theorem domLoop_reaches (g : DomGraph) (start : Nat) (fuel : Nat)
    (d : Nat → Finset Nat) (hinv : DomInv g start d)
    (hfuel : domMeasure g start d < fuel) :
    (domPass g start (domLoop g start fuel d)).2 = false := by
  induction fuel generalizing d with
  | zero => cases hfuel
  | succ fuel ih =>
      have heq : domLoop g start (fuel + 1) d
          = if (domPass g start d).2 = true
            then domLoop g start fuel (domPass g start d).1
            else (domPass g start d).1 := rfl
      cases hflag : (domPass g start d).2
      · rw [hflag] at heq
        simp only [Bool.false_eq_true, if_false] at heq
        rw [heq]
        have hid : (domPass g start d).1 = d := by
          rw [domPass_eq] at hflag ⊢
          exact (domStepFold_flag_false g _ _ _ hflag).2
        rw [hid]
        exact hflag
      · rw [hflag] at heq
        simp only [if_true] at heq
        rw [heq]
        have hl : ∀ n ∈ g.nodes.filter (fun m => m ≠ start), n ∈ g.nodes ∧ n ≠ start := by
          intro n hn
          exact ⟨(List.mem_filter.mp hn).1, of_decide_eq_true (List.mem_filter.mp hn).2⟩
        have hinv1 : DomInv g start (domPass g start d).1 := by
          rw [domPass_eq]
          exact (domStepFold_inv g start _ hl d false hinv).1
        have hmeas : domMeasure g start (domPass g start d).1 < domMeasure g start d := by
          rw [domPass_eq]
          refine domStepFold_measure g start _ (fun m hm => hm) d false d hinv
            (fun m x hx => hx) (fun hh => by cases hh) ?_
          rw [← domPass_eq]
          exact hflag
        exact ih _ hinv1 (by omega)

theorem domLoop_iterate (g : DomGraph) (start : Nat) (fuel : Nat)
    (d : Nat → Finset Nat) (k0 : Nat) (hd : d = passIter g start k0) :
    ∃ k, domLoop g start fuel d = passIter g start k := by
  induction fuel generalizing d k0 with
  | zero => exact ⟨k0, hd⟩
  | succ fuel ih =>
      have heq : domLoop g start (fuel + 1) d
          = if (domPass g start d).2 = true
            then domLoop g start fuel (domPass g start d).1
            else (domPass g start d).1 := rfl
      cases hflag : (domPass g start d).2
      · rw [hflag] at heq
        simp only [Bool.false_eq_true, if_false] at heq
        rw [heq]
        refine ⟨k0 + 1, ?_⟩
        show (domPass g start d).1 = passIter g start (k0 + 1)
        rw [hd]
        unfold passIter
        rw [Function.iterate_succ_apply']
      · rw [hflag] at heq
        simp only [if_true] at heq
        rw [heq]
        refine ih _ (k0 + 1) ?_
        rw [hd]
        unfold passIter
        rw [Function.iterate_succ_apply']

theorem map_sum_le_mul (L : List Nat) (f : Nat → Nat) (B : Nat)
    (h : ∀ x ∈ L, f x ≤ B) : (L.map f).sum ≤ L.length * B := by
  induction L with
  | nil => simp
  | cons a rest ih =>
      rw [List.map_cons, List.sum_cons, List.length_cons, Nat.succ_mul]
      have := ih (fun x hx => h x (List.mem_cons_of_mem a hx))
      have ha := h a (List.mem_cons_self a rest)
      omega

theorem domMeasure_init_lt (g : DomGraph) (start : Nat) :
    domMeasure g start (domInit g start)
      < g.nodes.length * g.nodes.length + 1 := by
  have hterm : ∀ x ∈ g.nodes.filter (fun n => n ≠ start),
      ((domInit g start) x).card ≤ g.nodes.length := by
    intro x hx
    have hxs : x ≠ start := of_decide_eq_true (List.mem_filter.mp hx).2
    unfold domInit
    rw [if_neg hxs]
    exact List.toFinset_card_le g.nodes
  have h1 := map_sum_le_mul _ _ _ hterm
  have h2 : (g.nodes.filter (fun n => n ≠ start)).length ≤ g.nodes.length :=
    List.length_filter_le _ _
  have h3 : (g.nodes.filter (fun n => n ≠ start)).length * g.nodes.length
      ≤ g.nodes.length * g.nodes.length :=
    Nat.mul_le_mul_right _ h2
  unfold domMeasure
  omega

theorem remFilter_mem (g : DomGraph) (start n : Nat)
    (hn : n ∈ g.nodes.filter (fun m => m ≠ start)) : n ∈ g.nodes ∧ n ≠ start :=
  ⟨(List.mem_filter.mp hn).1, of_decide_eq_true (List.mem_filter.mp hn).2⟩

theorem passIter_inv (g : DomGraph) (start : Nat)
    (h2 : ∀ n ∈ g.nodes, ∀ q ∈ g.preds n, q ∈ g.nodes) (k : Nat) :
    DomInv g start (passIter g start k) := by
  induction k with
  | zero => exact domInit_inv g start h2
  | succ k ih =>
      unfold passIter
      rw [Function.iterate_succ_apply']
      show DomInv g start (domPass g start (passIter g start k)).1
      rw [domPass_eq]
      exact (domStepFold_inv g start _ (fun n hn => remFilter_mem g start n hn) _ _ ih).1

theorem passIter_succ_le (g : DomGraph) (start : Nat)
    (h2 : ∀ n ∈ g.nodes, ∀ q ∈ g.preds n, q ∈ g.nodes) (k n : Nat) :
    passIter g start (k + 1) n ⊆ passIter g start k n := by
  have hstep : passIter g start (k + 1) = (domPass g start (passIter g start k)).1 := by
    unfold passIter
    rw [Function.iterate_succ_apply']
  rw [hstep, domPass_eq]
  exact (domStepFold_inv g start _ (fun m hm => remFilter_mem g start m hm) _ _
    (passIter_inv g start h2 k)).2 n

theorem passIter_mem (g : DomGraph) (start : Nat) (k : Nat) :
    ∀ n ∈ g.nodes, n ∈ passIter g start k n := by
  induction k with
  | zero =>
      intro n hn
      show n ∈ domInit g start n
      unfold domInit
      split
      · next h => exact h ▸ Finset.mem_singleton_self n
      · exact List.mem_toFinset.mpr hn
  | succ k ih =>
      intro n hn
      have hstep : passIter g start (k + 1) = (domPass g start (passIter g start k)).1 := by
        unfold passIter
        rw [Function.iterate_succ_apply']
      rw [hstep, domPass_eq]
      exact domStepFold_mem g _ _ _ ih n hn

theorem compute_dominator_iterate (g : DomGraph) (start : Nat) :
    ∃ k, compute_dominator g start = passIter g start k := by
  unfold compute_dominator
  exact domLoop_iterate g start _ _ 0 rfl

theorem compute_dominator_fix (g : DomGraph) (start : Nat)
    (h2 : ∀ n ∈ g.nodes, ∀ q ∈ g.preds n, q ∈ g.nodes) :
    (domPass g start (compute_dominator g start)).2 = false ∧
      (domPass g start (compute_dominator g start)).1 = compute_dominator g start := by
  have hreach : (domPass g start (compute_dominator g start)).2 = false := by
    unfold compute_dominator
    exact domLoop_reaches g start _ _ (domInit_inv g start h2)
      (domMeasure_init_lt g start)
  refine ⟨hreach, ?_⟩
  rw [domPass_eq] at hreach ⊢
  exact (domStepFold_flag_false g _ _ _ hreach).2

theorem domUpdate_empty_preds (g : DomGraph) (d : Nat → Finset Nat) (n : Nat)
    (hpreds : g.preds n = []) : domUpdate g d n = {n} := by
  unfold domUpdate
  rw [hpreds]
  exact Finset.union_empty _

theorem domStepFold_empty_keep (g : DomGraph) (n : Nat) (hpreds : g.preds n = [])
    (l : List Nat) :
    ∀ (acc : (Nat → Finset Nat) × Bool), acc.1 n = {n} →
      (l.foldl (domStep g) acc).1 n = {n} := by
  induction l with
  | nil => exact fun acc h => h
  | cons m rest ih =>
      intro acc h
      rw [List.foldl_cons]
      refine ih _ ?_
      show domWrite acc.1 m (domUpdate g acc.1 m) n = {n}
      by_cases hnm : n = m
      · subst hnm
        rw [domWrite_self]
        exact domUpdate_empty_preds g acc.1 n hpreds
      · rw [domWrite_ne _ _ _ _ hnm]
        exact h

theorem domStepFold_empty_set (g : DomGraph) (n : Nat) (hpreds : g.preds n = [])
    (l : List Nat) (hmem : n ∈ l) :
    ∀ (acc : (Nat → Finset Nat) × Bool), (l.foldl (domStep g) acc).1 n = {n} := by
  induction l with
  | nil => cases hmem
  | cons m rest ih =>
      intro acc
      rw [List.foldl_cons]
      rcases List.mem_cons.mp hmem with h | h
      · subst h
        refine domStepFold_empty_keep g n hpreds rest _ ?_
        show domWrite acc.1 n (domUpdate g acc.1 n) n = {n}
        rw [domWrite_self]
        exact domUpdate_empty_preds g acc.1 n hpreds
      · exact ih h _

theorem domLoop_empty_preds (g : DomGraph) (start n : Nat)
    (hmem : n ∈ g.nodes.filter (fun m => m ≠ start)) (hpreds : g.preds n = []) :
    ∀ (fuel : Nat) (d : Nat → Finset Nat), 1 ≤ fuel →
      domLoop g start fuel d n = {n} := by
  intro fuel
  induction fuel with
  | zero => intro d h; omega
  | succ fuel ih =>
      intro d _
      have heq : domLoop g start (fuel + 1) d
          = if (domPass g start d).2 = true
            then domLoop g start fuel (domPass g start d).1
            else (domPass g start d).1 := rfl
      have hset : (domPass g start d).1 n = {n} := by
        rw [domPass_eq]
        exact domStepFold_empty_set g n hpreds _ hmem _
      cases hflag : (domPass g start d).2
      · rw [hflag] at heq
        simp only [Bool.false_eq_true, if_false] at heq
        rw [heq]
        exact hset
      · rw [hflag] at heq
        simp only [if_true] at heq
        rw [heq]
        cases fuel with
        | zero => exact hset
        | succ f2 => exact ih _ (by omega)

theorem compute_dominator_empty_preds (g : DomGraph) (start n : Nat)
    (hn : n ∈ g.nodes) (hns : n ≠ start) (hpreds : g.preds n = []) :
    compute_dominator g start n = {n} := by
  unfold compute_dominator
  refine domLoop_empty_preds g start n ?_ hpreds _ _ (by omega)
  exact List.mem_filter.mpr ⟨hn, decide_eq_true hns⟩

/-!
## Concrete programs and graphs used by the claims
-/

/-- Extract the payload of a successful computation (default on error). -/
def exceptD {α : Type} [Inhabited α] (e : Except String α) : α :=
  match e with
  | .ok v => v
  | .error _ => default

/-- Whether a computation succeeded. -/
def exceptOk {α : Type} (e : Except String α) : Bool :=
  match e with
  | .ok _ => true
  | .error _ => false

/-- `def f(): pass` followed by the call expression statement `f()`. -/
def progFC : List PyStmt :=
  [ .functiondef ("f") [] [ .pass ],
    .exprStmt (.call (.name ("f")) []) ]

/-- The registry state after a full build of `progFC` on a fresh cache. -/
def fcBuild : BuildResult := exceptD (ControlFlow.generate_control_flow progFC [])

/-- The state after running the call-linking pass a second time on `fcBuild`. -/
def fcRelink : CFState := exceptD (ControlFlow.link_functions fcBuild.state)

/-- A program whose first statement is the bare name expression `start`:
its node renders to the same source text as the `start` sentinel. -/
def progStart : List PyStmt := [ .exprStmt (.name ("start")), .pass ]

/-- A call whose callee is a bare boolean operator:  `(... and ...)()`. -/
def progBool : List PyStmt := [ .exprStmt (.call (.boolop ("And")) []) ]

/-- The registry state after a full build of `progBool` on a fresh cache. -/
def boolBuild : BuildResult := exceptD (ControlFlow.generate_control_flow progBool [])

/-- A single `pass` statement. -/
def progPass : List PyStmt := [ .pass ]

/-- The process-wide cache left over after building `progPass` once. -/
def firstBuildCache : List CFNode :=
  (exceptD (ControlFlow.generate_control_flow progPass [])).state.cache

/-- The mapping returned by the module-level entry point for a second build
of `progPass`, run on the leftover cache. -/
def secondBuildMap : List (Nat × CFNode) :=
  exceptD (generate_control_flow progPass true firstBuildCache)

/-- A dominator input with an isolated node `1` (no predecessors), start `0`. -/
def domIsolated : DomGraph := { nodes := [0, 1], preds := fun _ => [] }

/-- A dominator input whose nodes `1` and `2` form a cycle unreachable from
the start node `0`. -/
def domCycle : DomGraph :=
  { nodes := [0, 1, 2],
    preds := fun n => if n = 1 then [2] else if n = 2 then [1] else [] }

/-- Statements the straight-line claim ranges over: single assignments,
`pass`, and expression statements. -/
def isSimpleStmt : PyStmt → Bool
  | .assign _ _ => true
  | .pass => true
  | .exprStmt _ => true
  | .functiondef _ _ _ => false

/-!
## Remaining build-level helper lemmas
-/

theorem buildWalk_InvJ (prog : List PyStmt) (st3 : CFState) (fr sp : Nat)
    (h : buildWalk prog [] = .ok (st3, fr, sp)) : InvJ st3 := by
  unfold buildWalk at h
  dsimp only at h
  rcases hw : walkStmts prog
      [(newNode [] ("start") { cache := [], functions := [] }).2]
      (newNode [] ("start") { cache := [], functions := [] }).1
    with err | ⟨st2, nodes⟩ <;> rw [hw] at h
  · cases h
  · injection h with h
    injection h with h1 h2
    subst h1
    have hJ0 : InvJ ({ cache := [], functions := [] } : CFState) := by
      intro p hp
      exact absurd hp (Nat.not_lt_zero p)
    have hJ1 : InvJ (newNode [] ("start") { cache := [], functions := [] }).1 :=
      InvJ_newNode _ _ _ hJ0
    have hJ2 : InvJ st2 := (walkStmts_frame prog _ _ _ _ hw).1.2.2.2 hJ1
    exact InvJ_newNode _ _ _ hJ2

/-- C1 (counterexample): after the full build of `def f(): pass` followed by
`f()`, the call node (rid 4) is a parent of the `enter` sentinel (rid 1), but
the `enter` sentinel is not recorded among the call node's children — the
`children` relation is not the exact inverse of `parents` once `link_functions`
has added interprocedural parent edges. -/
theorem children_not_inverse_after_linking_cex :
    exceptOk (ControlFlow.generate_control_flow progFC []) = true ∧
    1 < fcBuild.state.cache.length ∧ 4 < fcBuild.state.cache.length ∧
    4 ∈ (fcBuild.state.node 1).parents ∧
    1 ∉ (fcBuild.state.node 4).children := by decide

/-- C1 (amended): after the AST walk and the post-walk child recomputation —
i.e. just before `link_functions` — the `children` relation is the exact
inverse of `parents` on registered nodes; the subsequent call-linking pass
adds parent edges without mirroring them in `children`, so after the full
build only the forward containment survives: every recorded child edge has a
matching parent edge. -/
theorem children_inverse_amended :
    ∀ (prog : List PyStmt) (st3 : CFState) (fr sp : Nat),
      buildWalk prog [] = .ok (st3, fr, sp) →
      ((∀ p c, p < (ControlFlow.update_children st3).cache.length →
          c < (ControlFlow.update_children st3).cache.length →
          (c ∈ ((ControlFlow.update_children st3).node p).children ↔
            p ∈ ((ControlFlow.update_children st3).node c).parents)) ∧
        (∀ st6, ControlFlow.link_functions
            (ControlFlow.update_functions (ControlFlow.update_children st3)) = .ok st6 →
          ∀ p c, p < st6.cache.length → c < st6.cache.length →
            c ∈ (st6.node p).children → p ∈ (st6.node c).parents)) := by
  intro prog st3 fr sp h
  have hJ3 : InvJ st3 := buildWalk_InvJ prog st3 fr sp h
  have hJ4 : InvJ (ControlFlow.update_children st3) := update_children_InvJ st3 hJ3
  constructor
  · intro p c hp hc
    constructor
    · intro hmem
      exact (hJ4 p hp c hmem).2
    · intro hmem
      rw [update_children_length] at hp hc
      refine update_children_completes st3 c hc p ?_ hp
      rw [update_children_parents] at hmem
      exact hmem
  · intro st6 hlink p c hp hc hmem
    have hJ6 : InvJ st6 := (link_functions_frame _ _ hlink).2.2.2.2 hJ4
    exact (hJ6 p hp c hmem).2

/-- The intermediate walk state of the `progFC` build, used to instantiate the
amended C1 statement. -/
def c1WitWalk : CFState × Nat × Nat :=
  match buildWalk progFC [] with
  | .ok v => v
  | .error _ => default

theorem children_inverse_witness :
    3 ∈ ((ControlFlow.update_children c1WitWalk.1).node 1).children ↔
      1 ∈ ((ControlFlow.update_children c1WitWalk.1).node 3).parents :=
  (children_inverse_amended progFC c1WitWalk.1 c1WitWalk.2.1 c1WitWalk.2.2 rfl).1
    1 3 (by decide) (by decide)

/-- C2 (counterexample): in `link_functions` the enter edge runs the other
way (the call node becomes a parent of the callee's `enter`, not vice versa),
and there is no link-count-equals-zero guard: after the build of `progFC` the
call node's `calllink` is already `1`, yet a repeated pass still links (and
increments the count to `2`), duplicate edges being prevented only by
`add_parent`'s membership test. -/
theorem link_count_guard_cex :
    exceptOk (ControlFlow.generate_control_flow progFC []) = true ∧
    (fcBuild.state.node 4).calls = [Callee.name ("f")] ∧
    fcBuild.state.functions.lookup ("f") = some (1, 2) ∧
    1 ∉ (fcBuild.state.node 4).parents ∧
    4 ∈ (fcBuild.state.node 1).parents ∧
    (fcBuild.state.node 4).calllink = some 1 ∧
    exceptOk (ControlFlow.link_functions fcBuild.state) = true ∧
    (fcRelink.node 4).calllink = some 2 := by decide

/-- C2 (amended): for a node `nid` whose recorded callee name resolves in the
function table to the pair `(e, x)`, the per-call linking step always makes
`nid` an additional parent of the callee's enter node `e`; when `nid`
currently has children it additionally (for any link count `v` with the
asserted `v > -1`, not only `v = 0`) increments the link count to `v + 1` and
makes the callee's exit node `x` an additional parent of every current child;
when `nid` has no children only the enter edge is added. -/
theorem link_functions_step_amended :
    ∀ (st : CFState) (nid e x : Nat) (s : String) (v : Int),
      st.functions.lookup s = some (e, x) →
      e ≠ nid →
      e < st.cache.length →
      nid < st.cache.length →
      (st.node nid).calllink = some v →
      (-1 : Int) < v →
      ((st.node nid).children ≠ [] →
        ∃ st2, linkCall nid st (.name s) = .ok st2 ∧
          nid ∈ (st2.node e).parents ∧
          (st2.node nid).calllink = some (v + 1) ∧
          (∀ i ∈ (st.node nid).children, i < st.cache.length → x ∈ (st2.node i).parents)) ∧
      ((st.node nid).children = [] →
        linkCall nid st (.name s) = .ok (st.modifyNode e (fun n => n.addParent nid))) := by
  intro st nid e x s v hlook hne helt hnlt hcl hv
  have hch1 : ((st.modifyNode e (fun n => n.addParent nid)).node nid).children
      = (st.node nid).children := by
    refine CFState.node_modifyNode_proj CFNode.children st e _ (fun n => ?_) nid
    exact CFNode.addParent_children n nid
  have hcl1 : ((st.modifyNode e (fun n => n.addParent nid)).node nid).calllink
      = some v := by
    rw [CFState.node_modifyNode_ne st e _ nid (fun hh => hne hh.symm)]
    exact hcl
  constructor
  · intro hne2
    rcases hch : (st.node nid).children with _ | ⟨c0, cr⟩
    · exact absurd hch hne2
    · refine ⟨(c0 :: cr).foldl (fun s2 i => s2.modifyNode i (fun n => n.addParent x))
          ((st.modifyNode e (fun n => n.addParent nid)).modifyNode nid
            (fun n => { n with calllink := some (v + 1) })), ?_, ?_, ?_, ?_⟩
      · rw [linkCall, hlook]
        dsimp only
        rw [hch1, hch, hcl1]
        dsimp only
        rw [if_pos hv]
      · -- nid is a parent of the enter node in the final state
        refine addParentEachFold_parents_mono _ _ _ _ _ ?_
        rw [CFState.node_modifyNode_ne _ nid _ e hne]
        rw [CFState.node_modifyNode]
        rw [if_pos ⟨helt, rfl⟩]
        exact CFNode.mem_addParent_self _ _
      · -- the link count was incremented
        rw [modifyEachFold_proj CFNode.calllink (c0 :: cr)
          (fun n => n.addParent x) (fun n => CFNode.addParent_calllink n x) _ nid]
        rw [CFState.node_modifyNode]
        rw [if_pos ⟨by rw [CFState.length_modifyNode]; exact hnlt, rfl⟩]
      · -- every current child gained the exit node as a parent
        intro i hi hilen
        refine addParentEachFold_parents_self _ _ _ _ hi ?_
        rw [CFState.length_modifyNode, CFState.length_modifyNode]
        exact hilen
  · intro hch0
    rw [linkCall, hlook]
    dsimp only
    rw [hch1, hch0]

theorem link_functions_step_witness :
    ∃ st2, linkCall 4 fcBuild.state (.name ("f")) = .ok st2 ∧
      4 ∈ (st2.node 1).parents ∧
      (st2.node 4).calllink = some (1 + 1) ∧
      (∀ i ∈ (fcBuild.state.node 4).children, i < fcBuild.state.cache.length →
        2 ∈ (st2.node i).parents) :=
  (link_functions_step_amended fcBuild.state 4 1 2 ("f") 1 (by decide) (by decide)
    (by decide) (by decide) (by decide) (by decide)).1 (by decide)

/-- C3 (counterexample): for `def f(): pass` followed by `f()`, after the call
linker runs the call node (rid 4) does *not* have `f`'s enter node (rid 1) as
a parent — the inserted edge runs the other way round. -/
theorem relink_direction_cex :
    exceptOk (ControlFlow.generate_control_flow progFC []) = true ∧
    (fcBuild.state.node 4).calls = [Callee.name ("f")] ∧
    fcBuild.state.functions.lookup ("f") = some (1, 2) ∧
    (fcBuild.state.node 4).parents = [0] ∧
    1 ∉ (fcBuild.state.node 4).parents := by decide

/-- C3 (amended): for `def f(): pass` followed by `f()`, after one linking
pass the call node (rid 4) has become an additional parent of `f`'s enter
node (rid 1), and the call node's original child (the `stop` node, rid 5) has
`f`'s exit node (rid 2) as an additional parent; running the call linker a
second time succeeds and leaves every node's `parents` and `children` lists
unchanged (only the unguarded `calllink` counter moves), so no duplicate
edges appear. -/
theorem relink_idempotent_amended :
    exceptOk (ControlFlow.generate_control_flow progFC []) = true ∧
    4 ∈ (fcBuild.state.node 1).parents ∧
    (fcBuild.state.node 4).children = [5] ∧
    2 ∈ (fcBuild.state.node 5).parents ∧
    exceptOk (ControlFlow.link_functions fcBuild.state) = true ∧
    fcRelink.cache.map (fun n => (n.parents, n.children))
      = fcBuild.state.cache.map (fun n => (n.parents, n.children)) := by decide

/-- C5 (counterexample): a call whose callee is a bare boolean operator does
*not* abort the build — `get_func` returns the operator object itself and the
walk records it in the statement node's `calls` list. -/
theorem boolop_callee_cex :
    exceptOk (ControlFlow.generate_control_flow progBool []) = true ∧
    (boolBuild.state.node 1).calls = [Callee.opObj ("And")] := by decide

/-- C5 (amended): `get_func` resolves a direct name to its id, an attribute
access to its attribute name, a nested call by recursing on its own callee,
and a bare boolean operator to the operator object (no failure); every other
callee kind raises.  On a successful resolution, `on_call` walks the
arguments first and then appends the discovered callee to the calls list of
`myparents[0]` (the enclosing statement node); a failing resolution aborts
the walk. -/
theorem get_func_amended :
    (∀ s, get_func (.name s) = .ok (.name s)) ∧
    (∀ v a, get_func (.attributeRef v a) = .ok (.name a)) ∧
    (∀ f args, get_func (.call f args) = get_func f) ∧
    (∀ op, get_func (.boolop op) = .ok (.opObj op)) ∧
    (∀ k, get_func (.other k) = .error ("Exception: " ++ k)) ∧
    (∀ f args m0 rest st st1 p c,
      m0 < st.cache.length →
      walkExprs args (m0 :: rest) st = .ok (st1, p) →
      get_func f = .ok c →
      ∃ st2, walkExpr (.call f args) (m0 :: rest) st = .ok (st2, p) ∧
        (st2.node m0).calls = (st1.node m0).calls ++ [c]) ∧
    (∀ f args m0 rest st st1 p err,
      walkExprs args (m0 :: rest) st = .ok (st1, p) →
      get_func f = .error err →
      walkExpr (.call f args) (m0 :: rest) st = .error err) := by
  refine ⟨fun s => rfl, fun v a => rfl, fun f args => rfl, fun op => rfl,
    fun k => rfl, ?_, ?_⟩
  · intro f args m0 rest st st1 p c hm0 hw hg
    refine ⟨p.foldl (fun s2 c2 => s2.modifyNode c2 (fun n => { n with calllink := some 0 }))
        (st1.modifyNode m0 (fun n => n.addCalls c)), ?_, ?_⟩
    · rw [walkExpr, hw, hg]
    · have hlen : st1.cache.length = st.cache.length :=
        (walkExprs_frame args _ _ _ _ hw).2.1
      rw [modifyEachFold_proj CFNode.calls p
        (fun n => { n with calllink := some 0 }) (fun n => rfl) _ m0]
      rw [CFState.node_modifyNode]
      rw [if_pos ⟨by rw [hlen]; exact hm0, rfl⟩]
      rfl
  · intro f args m0 rest st st1 p err hw hg
    rw [walkExpr, hw, hg]

/-- A one-node registry state used to instantiate the amended C5 statement. -/
def c5WitState : CFState := (newNode [] ("x") { cache := [], functions := [] }).1

theorem get_func_witness :
    ∃ st2, walkExpr (.call (.name ("g")) []) [0] c5WitState = .ok (st2, [0]) ∧
      (st2.node 0).calls = (c5WitState.node 0).calls ++ [Callee.name ("g")] :=
  (get_func_amended).2.2.2.2.2.1 (.name ("g")) [] 0 [] c5WitState c5WitState [0]
    (.name ("g")) (by decide) rfl rfl

/-- C4 (counterexample): in the graph with nodes `{0, 1}` and no edges, node
`1` is unreachable from the start node `0`, yet `compute_dominator` maps it to
the singleton `{1}`, not to the universal set `{0, 1}`: a node with an empty
predecessor list gets `{n} ∪ set() = {n}` on the very first pass. -/
theorem unreachable_universal_cex :
    ¬ domReachable domIsolated 0 1 ∧
    compute_dominator domIsolated 0 1 = {1} ∧
    compute_dominator domIsolated 0 1 ≠ domIsolated.nodes.toFinset := by
  refine ⟨?_, by decide, by decide⟩
  intro h
  rcases Relation.ReflTransGen.cases_tail h with h1 | ⟨c, _, hc⟩
  · exact absurd h1 (by decide)
  · exact absurd hc (List.not_mem_nil c)

/-- C4 (amended): the dominator computation reports unreachable nodes as part
of its result rather than raising; a non-start node with an empty predecessor
list is mapped to the singleton `{n}` (not the universal set), while an
unreachable node with predecessors can retain the universal set, as node `1`
of the unreachable cycle `1 ↔ 2` does. -/
theorem unreachable_dominators_amended :
    (∀ (g : DomGraph) (start n : Nat), n ∈ g.nodes → n ≠ start →
      g.preds n = [] → compute_dominator g start n = {n}) ∧
    (¬ domReachable domCycle 0 1 ∧
      compute_dominator domCycle 0 1 = domCycle.nodes.toFinset) := by
  refine ⟨fun g start n hn hns hp => compute_dominator_empty_preds g start n hn hns hp,
    ?_, by decide⟩
  intro h
  have hzero : ∀ m, domReachable domCycle 0 m → m = 0 := by
    intro m hm
    induction hm with
    | refl => rfl
    | tail hab hbc ih =>
        subst ih
        revert hbc
        show 0 ∈ domCycle.preds _ → _
        unfold domCycle
        dsimp only
        split
        · intro hx; simp at hx
        · split
          · intro hx; simp at hx
          · intro hx; simp at hx
  exact absurd (hzero 1 h) (by decide)

theorem unreachable_dominators_witness :
    compute_dominator domIsolated 0 1 = {1} :=
  (unreachable_dominators_amended).1 domIsolated 0 1 (by decide) (by decide) (by decide)

/-- C6: on any graph whose listed predecessors are themselves keys of the
mapping, the dominator fixpoint iteration terminates: the computed result is
one of the pass-iterates, a further pass reports no change and leaves the
mapping fixed, each key's stored set is monotonically non-increasing from one
pass to the next, and every key's set always contains the key itself (the
lower bound `{n}`). -/
theorem dominator_fixpoint_terminates :
    ∀ (g : DomGraph) (start : Nat),
      (∀ n ∈ g.nodes, ∀ q ∈ g.preds n, q ∈ g.nodes) →
      (∃ k, compute_dominator g start = passIter g start k) ∧
      (domPass g start (compute_dominator g start)).2 = false ∧
      (domPass g start (compute_dominator g start)).1 = compute_dominator g start ∧
      (∀ k n, passIter g start (k + 1) n ⊆ passIter g start k n) ∧
      (∀ k n, n ∈ g.nodes → n ∈ passIter g start k n) := by
  intro g start h2
  refine ⟨compute_dominator_iterate g start, (compute_dominator_fix g start h2).1,
    (compute_dominator_fix g start h2).2, ?_, ?_⟩
  · intro k n
    exact passIter_succ_le g start h2 k n
  · intro k n hn
    exact passIter_mem g start k n hn

theorem dominator_fixpoint_witness :
    (domPass domCycle 0 (compute_dominator domCycle 0)).2 = false :=
  (dominator_fixpoint_terminates domCycle 0 (by decide)).2.1

/-- The shape of the registry while walking a straight-line program: `k + 1`
nodes so far (founder plus `k` statement nodes), no registered functions, and
a single parent chain `0 ← 1 ← ... ← k`. -/
def ChainState (k : Nat) (st : CFState) : Prop :=
  st.cache.length = k + 1 ∧ st.functions = [] ∧ (st.node 0).parents = [] ∧
  (∀ i, 1 ≤ i → i ≤ k → (st.node i).parents = [i - 1])

theorem chainState_newNode (k : Nat) (src : String) (st : CFState)
    (h : ChainState k st) :
    ChainState (k + 1) (newNode [k] src st).1 ∧ (newNode [k] src st).2 = k + 1 := by
  obtain ⟨h1, h2, h3, h4⟩ := h
  refine ⟨⟨?_, ?_, ?_, ?_⟩, ?_⟩
  · rw [newNode_length, h1]
  · rw [newNode_functions, h2]
  · rw [newNode_parents_ne _ _ _ 0 (by rw [h1]; omega), h3]
  · intro i hi1 hi2
    by_cases hik : i ≤ k
    · rw [newNode_parents_ne _ _ _ i (by rw [h1]; omega), h4 i hi1 hik]
    · have hieq : i = k + 1 := by omega
      subst hieq
      have hrhs : k + 1 - 1 = k := by omega
      rw [hrhs, show k + 1 = st.cache.length from h1.symm, newNode_parents_new]
  · rw [newNode_rid, h1]

theorem chainState_exprFrame (m : Nat) (p : List Nat) (st1 st2 : CFState)
    (p2 : List Nat) (hfr : ExprFrame p st1 st2 p2) (h : ChainState m st1) :
    ChainState m st2 := by
  obtain ⟨e1, e2, e3, e4, e5, e6⟩ := hfr
  obtain ⟨h1, h2, h3, h4⟩ := h
  exact ⟨e2.trans h1, e3.trans h2, (e4 0).trans h3,
    fun i hi1 hi2 => (e4 i).trans (h4 i hi1 hi2)⟩

theorem chainState_walkStmt (s : PyStmt) (hs : isSimpleStmt s = true) (k : Nat)
    (st st' : CFState) (p' : List Nat) (hst : ChainState k st)
    (h : walkStmt s [k] st = .ok (st', p')) :
    ChainState (k + 1) st' ∧ p' = [k + 1] := by
  cases s with
  | pass =>
      simp only [walkStmt] at h
      injection h with h
      injection h with ha hb
      subst ha; subst hb
      obtain ⟨hc, hr⟩ := chainState_newNode k (renderStmt .pass) st hst
      exact ⟨hc, by rw [hr]⟩
  | assign targets value =>
      simp only [walkStmt] at h
      split at h
      · cases h
      · have hfr := walkExpr_frame value _ _ _ _ h
        obtain ⟨hc, hr⟩ := chainState_newNode k
          (renderStmt (.assign targets value)) st hst
        refine ⟨chainState_exprFrame _ _ _ _ _ hfr hc, ?_⟩
        rw [hfr.1, hr]
  | exprStmt value =>
      simp only [walkStmt] at h
      have hfr := walkExpr_frame value _ _ _ _ h
      obtain ⟨hc, hr⟩ := chainState_newNode k (renderStmt (.exprStmt value)) st hst
      refine ⟨chainState_exprFrame _ _ _ _ _ hfr hc, ?_⟩
      rw [hfr.1, hr]
  | functiondef fname args body => exact Bool.noConfusion hs

theorem chainState_walkStmts (prog : List PyStmt)
    (hsimple : ∀ s ∈ prog, isSimpleStmt s = true) :
    ∀ (k : Nat) (st st' : CFState) (p' : List Nat), ChainState k st →
      walkStmts prog [k] st = .ok (st', p') →
      ChainState (k + prog.length) st' ∧ p' = [k + prog.length] := by
  induction prog with
  | nil =>
      intro k st st' p' hst h
      rw [walkStmts] at h
      injection h with h
      injection h with ha hb
      subst ha; subst hb
      simpa using hst
  | cons s rest ih =>
      intro k st st' p' hst h
      rw [walkStmts] at h
      rcases hw : walkStmt s [k] st with err | ⟨st1, p1⟩ <;> rw [hw] at h
      · cases h
      · obtain ⟨hc1, hp1⟩ := chainState_walkStmt s
          (hsimple s (List.mem_cons_self s rest)) k st st1 p1 hst hw
        subst hp1
        obtain ⟨hc2, hp2⟩ := ih (fun t ht => hsimple t (List.mem_cons_of_mem s ht))
          (k + 1) st1 st' p' hc1 h
        rw [List.length_cons]
        refine ⟨?_, ?_⟩
        · rw [show k + (rest.length + 1) = k + 1 + rest.length from by omega]
          exact hc2
        · rw [hp2, show k + 1 + rest.length = k + (rest.length + 1) from by omega]

/-- C7: for a straight-line program of `k` simple statements (assignments,
`pass`, expression statements), a successful build yields exactly `k + 2`
registered nodes — the `start` sentinel (rid `0`), one node per statement and
the `stop` sentinel (rid `k + 1`) — and the parent lists form a single linear
chain from `start` to `stop`. -/
theorem straight_line_chain :
    ∀ (prog : List PyStmt) (r : BuildResult),
      (∀ s ∈ prog, isSimpleStmt s = true) →
      ControlFlow.generate_control_flow prog [] = .ok r →
      r.state.cache.length = prog.length + 2 ∧
      r.founder = 0 ∧ r.stop = prog.length + 1 ∧
      (r.state.node 0).parents = [] ∧
      (∀ i, 1 ≤ i → i ≤ prog.length + 1 → (r.state.node i).parents = [i - 1]) := by
  intro prog r hsimple h
  rw [ControlFlow.generate_control_flow] at h
  rcases hbw : buildWalk prog [] with err | ⟨st3, f0, s0⟩ <;> rw [hbw] at h
  · cases h
  · dsimp only at h
    -- analyse the walk phase
    unfold buildWalk at hbw
    dsimp only at hbw
    rcases hw : walkStmts prog
        [(newNode [] ("start") { cache := [], functions := [] }).2]
        (newNode [] ("start") { cache := [], functions := [] }).1
      with err2 | ⟨st2, nodes⟩ <;> rw [hw] at hbw
    · cases hbw
    · injection hbw with hbw
      injection hbw with hb1 hb2
      injection hb2 with hb2 hb3
      have hchain0 : ChainState 0 (newNode [] ("start") { cache := [], functions := [] }).1 := by
        refine ⟨rfl, rfl, ?_, ?_⟩
        · exact newNode_parents_new [] ("start") { cache := [], functions := [] }
        · intro i hi1 hi2; omega
      have hfr0 : (newNode [] ("start") ({ cache := [], functions := [] } : CFState)).2 = 0 :=
        newNode_rid [] ("start") { cache := [], functions := [] }
      rw [hfr0] at hw
      obtain ⟨hc2, hnodes⟩ := chainState_walkStmts prog hsimple 0 _ st2 nodes hchain0 hw
      subst hnodes
      rw [Nat.zero_add] at hc2 hb1 hb3
      obtain ⟨hc3, hstop⟩ := chainState_newNode prog.length ("stop") st2 hc2
      rw [hb1] at hc3
      rw [hb3] at hstop
      -- the post-walk passes
      have hc4 : ChainState (prog.length + 1) (ControlFlow.update_children st3) := by
        obtain ⟨h1, h2, h3, h4⟩ := hc3
        refine ⟨?_, ?_, ?_, ?_⟩
        · rw [update_children_length, h1]
        · rw [update_children_functions, h2]
        · rw [update_children_parents, h3]
        · intro i hi1 hi2
          rw [update_children_parents, h4 i hi1 hi2]
      have hl : ControlFlow.link_functions
          (ControlFlow.update_functions (ControlFlow.update_children st3))
          = .ok (ControlFlow.update_children st3) :=
        link_functions_noFunctions _ hc4.2.1
      rw [hl] at h
      dsimp only at h
      injection h with h
      subst h
      obtain ⟨h1, h2, h3, h4⟩ := hc4
      refine ⟨by rw [h1], hb2.symm, ?_, h3, h4⟩
      exact hstop

/-- The result of building the one-statement program `pass`, used to
instantiate the straight-line claim. -/
def c7WitBuild : BuildResult := exceptD (ControlFlow.generate_control_flow progPass [])

theorem straight_line_chain_witness :
    c7WitBuild.state.cache.length = 1 + 2 ∧
      (c7WitBuild.state.node 0).parents = [] ∧
      (c7WitBuild.state.node 2).parents = [1] :=
  ⟨(straight_line_chain progPass c7WitBuild (by decide) rfl).1,
    (straight_line_chain progPass c7WitBuild (by decide) rfl).2.2.2.1,
    (straight_line_chain progPass c7WitBuild (by decide) rfl).2.2.2.2 2
      (by decide) (by decide)⟩

/-- C8: walking a function-definition statement hands the surrounding frontier
back unchanged, so a nested definition does not interrupt the enclosing flow;
the `enter` sentinel (the first fresh rid) ends the walk with no parents in the
surrounding graph, every parent acquired by the `exit` sentinel is a node
created during the definition's walk, and the sentinel pair is registered in
the function table under the function's name. -/
theorem functiondef_frame :
    ∀ (fname : String) (args : List String) (body : List PyStmt) (ps : List Nat)
      (st st' : CFState) (ps' : List Nat),
      walkStmt (.functiondef fname args body) ps st = .ok (st', ps') →
      ps' = ps ∧
      (st'.node st.cache.length).parents = [] ∧
      (∀ q, q ∈ (st'.node (st.cache.length + 1)).parents → st.cache.length ≤ q) ∧
      st'.functions.head? = some (fname, st.cache.length, st.cache.length + 1) := by
  intro fname args body ps st st' ps' h
  simp only [walkStmt] at h
  rcases hw : walkStmts body [(functionSentinels fname args st).2.1]
      (functionSentinels fname args st).1 with err | ⟨stB, pB⟩ <;> rw [hw] at h
  · cases h
  · injection h with h
    injection h with h1 h2
    subst h1; subst h2
    obtain ⟨⟨b1, b2, b3, b4⟩, b5⟩ := walkStmts_frame body _ _ _ _ hw
    have henter := functionSentinels_enter fname args st
    have hexit := functionSentinels_exit fname args st
    have hlen := functionSentinels_length fname args st
    refine ⟨rfl, ?_, ?_, ?_⟩
    · rw [finishFunctionDef_parents_ne fname _ _ stB pB st.cache.length
          (by rw [hexit]; omega),
        b2 st.cache.length (by rw [hlen]; omega), functionSentinels_enter_parents]
    · intro q hq
      rw [hexit] at hq
      rcases finishFunctionDef_exit_parents_elim fname _ _ stB pB q hq with h3 | h3 | h3
      · rw [← hexit, b2 _ (by rw [hlen, hexit]; omega), hexit,
          functionSentinels_exit_parents] at h3
        cases h3
      · rw [henter] at h3
        rw [b3 st.cache.length (by rw [hlen]; omega),
          functionSentinels_enter_return] at h3
        cases h3
      · rcases b5 q h3 with h4 | h4
        · rw [henter] at h4
          simp only [List.mem_singleton] at h4
          exact Nat.le_of_eq h4.symm
        · rw [hlen] at h4
          omega
    · rw [finishFunctionDef_functions, henter, hexit]
      rfl

/-- A registry holding just a founder node, used to instantiate the
function-definition frame claim. -/
def c8WitStart : CFState := (newNode [] ("start") { cache := [], functions := [] }).1

/-- Walking `def f(): pass` from the frontier `[0]` over that registry. -/
def c8WitWalk : CFState × List Nat :=
  exceptD (walkStmt (.functiondef ("f") [] [PyStmt.pass]) [0] c8WitStart)

theorem functiondef_frame_witness :
    c8WitWalk.2 = [0] ∧
      (c8WitWalk.1.node c8WitStart.cache.length).parents = [] ∧
      c8WitWalk.1.functions.head?
        = some (("f"), c8WitStart.cache.length, c8WitStart.cache.length + 1) :=
  ⟨(functiondef_frame ("f") [] [PyStmt.pass] [0] c8WitStart c8WitWalk.1 c8WitWalk.2
      rfl).1,
    (functiondef_frame ("f") [] [PyStmt.pass] [0] c8WitStart c8WitWalk.1 c8WitWalk.2
      rfl).2.1,
    (functiondef_frame ("f") [] [PyStmt.pass] [0] c8WitStart c8WitWalk.1 c8WitWalk.2
      rfl).2.2.2⟩

/-- C9: `ControlFlowRegistry.reset` assigns only method-local variables, so
the process-wide node cache is left untouched and rids keep increasing across
successive builds.  Concretely: after a first build of `pass` the cache holds
3 nodes; a second build of the same program on that leftover cache succeeds,
and the mapping it returns keeps the ids `[1, 4]` — node `1` is the `pass`
node created by the FIRST build, still present in the result of the second. -/
theorem reset_persists_cache :
    (∀ cache : List CFNode, ControlFlowRegistry.reset cache = cache) ∧
      firstBuildCache.length = 3 ∧
      exceptOk (generate_control_flow progPass true firstBuildCache) = true ∧
      secondBuildMap.map Prod.fst = [1, 4] ∧
      (secondBuildMap.lookup 1).map CFNode.src = some ("pass") :=
  ⟨fun _ => rfl, by decide, by decide, by decide, by decide⟩

/-- C10: with `remove_start_stop` set, the module-level entry point filters
the returned mapping by rendered source text — every entry whose source
renders to the string `"start"` or `"stop"` is dropped, not just the two
sentinel nodes by identity.  In general the filtered result is exactly the
unfiltered mapping with those entries removed; on a program whose first user
statement is the bare name expression `start`, that user node (id `1`,
distinct from the sentinel id `0`) is removed along with the sentinels. -/
theorem remove_start_stop_by_text :
    (∀ (prog : List PyStmt) (cache0 : List CFNode),
        generate_control_flow prog true cache0
          = (generate_control_flow prog false cache0).map
              (fun m => m.filter
                (fun kv => !(kv.2.src == "start" || kv.2.src == "stop")))) ∧
      exceptOk (generate_control_flow progStart true []) = true ∧
      (exceptD (generate_control_flow progStart true [])).map Prod.fst = [2] ∧
      (exceptD (generate_control_flow progStart false [])).map Prod.fst
        = [0, 1, 2, 3] ∧
      ((exceptD (generate_control_flow progStart false [])).lookup 1).map CFNode.src
        = some ("start") ∧
      (1 : Nat) ≠ 0 := by
  refine ⟨?_, by decide, by decide, by decide, by decide, by decide⟩
  intro prog cache0
  unfold generate_control_flow
  dsimp only
  rcases h : ControlFlow.generate_control_flow prog (ControlFlowRegistry.reset cache0)
    with e | r <;> rfl
